import Mathlib

/-!
# Waveform analysis of `sbndcode/DaqAnalysis/Analysis.cc`

A shallow embedding of `SimpleDaqAnalysis::Mode`, `SimpleDaqAnalysis::ProcessChannel`
and `SimpleDaqAnalysis::analyze`, followed by the properties established about them.

Conventions of the embedding:

* `unsigned` values are natural numbers kept below `2 ^ 32`; every `unsigned`
  operation that can wrap is written with an explicit `% 2 ^ 32`;
* `short` samples are integers; results stated for all integers hold for the
  16-bit ones in particular;
* a `std::array<T, 10>` is a function on `Fin 10`;
* a loop `for (i = 0; i < 10; i++) if (p i) { ...; break; }` is `Fin.find p`,
  the first index satisfying `p`.
-/

namespace DaqAnalysis

/-! ## `SimpleDaqAnalysis::Mode` -/

/-- The value of `c ++` on an `unsigned` counter. -/
def uincr (c : Nat) : Nat := (c + 1) % 2 ^ 32

/-- The two local arrays of `Mode`: `counters` and `modes`. -/
structure ModeState where
  counters : Fin 10 → Nat
  modes : Fin 10 → Int

/-- Both arrays are zero-initialised (`counters {}`, `modes {}`). -/
def ModeState.init : ModeState :=
  { counters := fun _ => 0, modes := fun _ => 0 }

/-- The body of the loop `for (auto val: adcs)` of `Mode`. -/
def modeStep (s : ModeState) (val : Int) : ModeState :=
  -- look for a home for the val
  match Fin.find (fun i => s.modes i = val) with
  | some home =>
    -- incl if home
    { s with counters := Function.update s.counters home (uincr (s.counters home)) }
  | none =>
    -- invade a home if you don't have one
    match Fin.find (fun i => s.counters i = 0) with
    | some home =>
      { counters := Function.update s.counters home (uincr (s.counters home)),
        modes := Function.update s.modes home val }
    | none =>
      -- decl if no home
      { s with counters := fun i => if s.counters i = 0 then 0 else s.counters i - 1 }

/-- The state of the two arrays after the pass over `adcs`. -/
def modePass (adcs : List Int) : ModeState :=
  adcs.foldl modeStep ModeState.init

/-- One iteration of the final scan: `acc = (max_counters, ret)`. -/
def scanStep (s : ModeState) (acc : Nat × Int) (i : Fin 10) : Nat × Int :=
  if s.counters i > acc.1 then (s.counters i, s.modes i) else acc

/-- The final scan of `Mode`: the first slot holding the highest counter, and `ret = 0`
when no counter is positive. -/
def modeResult (s : ModeState) : Int :=
  ((List.finRange 10).foldl (scanStep s) (0, 0)).2

/-- `short SimpleDaqAnalysis::Mode(const std::vector<short> &adcs)`. -/
def Mode (adcs : List Int) : Int :=
  modeResult (modePass adcs)

/-! ### Auxiliary notions used to reason about the pass -/

/-- The arrays reached on a constant waveform: slot 0 holds the constant and the number of
samples modulo `2 ^ 32`; every other slot is untouched. -/
def constState (c : Int) (k : Nat) : ModeState :=
  { counters := Function.update (fun _ => 0) 0 k,
    modes := Function.update (fun _ => 0) 0 c }

/-- Slot `h` rewritten to hold value `m` with counter `c`. -/
def setSlot (s : ModeState) (h : Fin 10) (m : Int) (c : Nat) : ModeState :=
  { counters := Function.update s.counters h c, modes := Function.update s.modes h m }

/-- Every positive counter lowered by one. -/
def declAll (s : ModeState) : ModeState :=
  { s with counters := fun i => if s.counters i = 0 then 0 else s.counters i - 1 }

/-- A slot with a positive counter is the first slot holding its value: the lookup by value
finds an occupied slot whenever one holds the sample. -/
def FirstHome (s : ModeState) : Prop :=
  ∀ p q, q < p → s.counters p ≠ 0 → s.modes q ≠ s.modes p

/-- Occupied slots hold pairwise different values. -/
def Distinct (s : ModeState) : Prop :=
  ∀ p q, s.counters p ≠ 0 → s.counters q ≠ 0 → s.modes p = s.modes q → p = q

/-- Sum of the counters of the slots holding `v`. -/
def heldBy (s : ModeState) (v : Int) : Nat :=
  ∑ i, if s.modes i = v then s.counters i else 0

/-- Sum of the counters of the slots holding another value than `v`. -/
def heldByOthers (s : ModeState) (v : Int) : Nat :=
  ∑ i, if s.modes i = v then 0 else s.counters i

/-! ## The reference algorithm of the specification

Section 4.1 of the specification: "maintain K (value, count) slots. For each sample: if it
matches an occupied slot, increment that slot's count; else if an empty slot exists, occupy
it with count 1; else decrement all counts by 1 (slots reaching zero become empty)", with
`K = 10`. A slot is occupied when its count is positive; counts are natural numbers. The ten
slots are kept as a `ModeState`, so that both algorithms are observed the same way. -/

/-- One sample of the reference algorithm. -/
def refStep (s : ModeState) (val : Int) : ModeState :=
  match Fin.find (fun i => s.counters i ≠ 0 ∧ s.modes i = val) with
  | some h => { s with counters := Function.update s.counters h (s.counters h + 1) }
  | none =>
    match Fin.find (fun i => s.counters i = 0) with
    | some h =>
      { counters := Function.update s.counters h 1, modes := Function.update s.modes h val }
    | none => { s with counters := fun i => s.counters i - 1 }

/-- The reference slots after the pass over `adcs`, starting from ten empty slots. -/
def refPass (adcs : List Int) : ModeState :=
  adcs.foldl refStep ModeState.init

/-- The multiset of (value, count) pairs over the slots with a positive count. -/
def occupied (s : ModeState) : Multiset (Int × Nat) :=
  (Finset.univ.val.map (fun i => (s.modes i, s.counters i))).filter (fun p => 0 < p.2)

/-- Every occupied slot of `s` has an occupied slot of `r` with the same value and count. -/
def Sub (s r : ModeState) : Prop :=
  ∀ v k, k ≠ 0 → (∃ i, s.modes i = v ∧ s.counters i = k) → ∃ j, r.modes j = v ∧ r.counters j = k

/-! ## `SimpleDaqAnalysis::ProcessChannel` and `SimpleDaqAnalysis::analyze`

The classes `NoiseSample`, `PeakFinder`, `FFTManager` and `ChannelData` are used by
`Analysis.cc` and declared in headers that are not part of the analysed sources. Their
data is modelled from the specification and their numeric routines are parameters of the
embedding (`Ext`). Values of type `double` that hold converted ADC samples are exact
integers and are modelled as such (`DBL_MAX` is the integer `2 ^ 1024 - 2 ^ 971`); the
results of the external floating-point routines are of an uninterpreted type. -/

/-- The value of `a - b` on `unsigned` operands. -/
def usub (a b : Nat) : Nat := (a % 2 ^ 32 + 2 ^ 32 - b % 2 ^ 32) % 2 ^ 32

/-- The constant `DBL_MAX` of `<float.h>`, an integer. -/
def DBL_MAX : Int :=
  179769313486231570814527423731704356798070567525844996598917476803157260780028538760589558632766878171540458953514382464234321326889464182768467546703537516986049910576551282076245490090389328944075868508455133942304583236903222948165808559332123348274797826204144723168738177180919299881250404026184124858368

/-- Modelled from the spec: the class `NoiseSample` of `Noise.hh`, "constructed either (a)
from an explicit set of NoiseSampleRanges plus a baseline, or (b) from [...] its Peak list";
`Ranges()` is the accessor of `ranges`, inclusive `[start, end]` tick pairs. -/
structure NoiseSample where
  ranges : List (Nat × Nat)
  baseline : Int
  deriving DecidableEq

/-- A default-constructed `NoiseSample`. -/
def NoiseSample.zero : NoiseSample := { ranges := [], baseline := 0 }

/-- The routines of `FFT.hh`, `PeakFinder.hh` and `Noise.hh` called by `Analysis.cc`. -/
structure Ext where
  /-- Results of the floating-point routines. -/
  Real : Type
  /-- The value `0.0`. -/
  zero : Real
  /-- The type `PeakFinder::Peak`. -/
  Peak : Type
  /-- The type `FFTManager`. -/
  FFT : Type
  /-- The constructors `FFTManager(n)` (on `some n`) and `FFTManager()`. -/
  newFFT : Option Nat → FFT
  InputSize : FFT → Nat
  Set : FFT → Nat → FFT
  /-- The assignment `*InputAt(i) = adc`. -/
  InputAt : FFT → Nat → Int → FFT
  Execute : FFT → FFT
  OutputSize : FFT → Int
  ReOutputAt : FFT → Nat → Real
  ImOutputAt : FFT → Nat → Real
  /-- The peaks of `PeakFinder(waveform, baseline, n_smoothing_samples, threshold_hi,
  threshold_lo)`. -/
  Peaks : List Int → Int → Nat → Real → Real → List Peak
  /-- The constructor `NoiseSample(peaks, baseline, wvfm_size)`. -/
  NoiseSampleOfPeaks : List Peak → Int → Nat → NoiseSample
  RMS : NoiseSample → List Int → Real
  Correlation : NoiseSample → List Int → NoiseSample → List Int → Real
  SumRMS : NoiseSample → List Int → NoiseSample → List Int → Real

/-- Modelled from the spec: the record `ChannelData` of `ChannelData.hh`, with the fields
that `Analysis.cc` reads and writes. -/
structure ChannelData (E : Ext) where
  channel_no : Nat
  baseline : Int
  max : Int
  min : Int
  rms : E.Real
  last_channel_correlation : E.Real
  next_channel_correlation : E.Real
  last_channel_sum_rms : E.Real
  next_channel_sum_rms : E.Real
  waveform : List Int
  fft_real : List E.Real
  fft_imag : List E.Real
  peaks : List E.Peak
  noise_ranges : List (Nat × Nat)

/-- A value-initialised `ChannelData`, as the constructor of `std::vector` creates it. -/
def ChannelData.zero (E : Ext) : ChannelData E :=
  { channel_no := 0, baseline := 0, max := 0, min := 0, rms := E.zero,
    last_channel_correlation := E.zero, next_channel_correlation := E.zero,
    last_channel_sum_rms := E.zero, next_channel_sum_rms := E.zero,
    waveform := [], fft_real := [], fft_imag := [], peaks := [], noise_ranges := [] }

/-- The fields of `AnalysisConfig` that the analysis reads. -/
structure AnalysisConfig (E : Ext) where
  threshold_hi : E.Real
  threshold_lo : E.Real
  noise_range_sampling : Nat
  n_noise_samples : Nat
  n_smoothing_samples : Nat
  static_input_size : Int
  n_channels : Nat

/-- A `raw::RawDigit`: `Channel()` and `ADCs()`. -/
structure RawDigit where
  Channel : Nat
  ADCs : List Int
  deriving DecidableEq

/-- The accessor `NADC()`, the number of samples. -/
def RawDigit.NADC (digits : RawDigit) : Nat := digits.ADCs.length

/-- The data members of `SimpleDaqAnalysis` (declared in `Analysis.h`). `_per_channel_data`
and `_noise_samples` are the two `std::vector`s that the constructor creates with
`n_channels` elements. The vector `_noise_samples` is its storage (`noise_store`, of fixed
capacity) and its `size()` (`noise_size`); `operator[]` addresses the storage without
looking at the size. The flag `noise_oob` is a monitor, not a data member: it records that
some `_noise_samples[k]` was evaluated with `k ≥ size()`, which checked indexing rejects. -/
structure State (E : Ext) where
  event_ind : Nat
  per_channel_data : List (ChannelData E)
  noise_size : Nat
  noise_store : List NoiseSample
  fft_manager : E.FFT
  noise_oob : Bool

/-- The constructor `SimpleDaqAnalysis::SimpleDaqAnalysis`. -/
def SimpleDaqAnalysis (E : Ext) (cfg : AnalysisConfig E) : State E :=
  { event_ind := 0,
    per_channel_data := List.replicate cfg.n_channels (ChannelData.zero E),
    noise_size := cfg.n_channels,
    noise_store := List.replicate cfg.n_channels NoiseSample.zero,
    fft_manager :=
      if cfg.static_input_size > 0 then E.newFFT (some cfg.static_input_size.toNat)
      else E.newFFT none,
    noise_oob := false }

/-- The locals `max`, `min`, the waveform being filled and the transform input buffer in the
sample loop of `ProcessChannel`. -/
structure SampleAcc (E : Ext) where
  max : Int
  min : Int
  waveform : List Int
  fft : E.FFT

/-- The body of `for (unsigned i = 0; i < digits.NADC(); i ++)`. -/
def sampleStep (E : Ext) (acc : SampleAcc E) (i : Nat) (adc : Int) : SampleAcc E :=
  { max := if adc > acc.max then adc else acc.max,
    min := if adc < acc.min then adc else acc.min,
    -- fill up waveform
    waveform := acc.waveform ++ [adc],
    -- fill up fftw array
    fft := E.InputAt acc.fft i adc }

/-- The sample loop from index `i` on, over the samples not yet visited. -/
def sampleLoop (E : Ext) : Nat → List Int → SampleAcc E → SampleAcc E
  | _, [], acc => acc
  | i, adc :: rest, acc => sampleLoop E (i + 1) rest (sampleStep E acc i adc)

/-- The noise sample that `ProcessChannel` builds. -/
def makeNoiseSample (E : Ext) (cfg : AnalysisConfig E) (peaks : List E.Peak) (baseline : Int)
    (nadc : Nat) : NoiseSample :=
  if cfg.noise_range_sampling = 0 then
    -- use first n_noise_samples
    { ranges := [(0, usub cfg.n_noise_samples 1)], baseline := baseline }
  else
    -- or use peak finding
    E.NoiseSampleOfPeaks peaks baseline nadc

/-- The body of `if (channel < _config.n_channels) { ... }` in `ProcessChannel`. -/
def processBody (E : Ext) (cfg : AnalysisConfig E) (s : State E) (digits : RawDigit) :
    State E :=
  let channel := digits.Channel
  -- re-allocate FFT if necessary
  let fft0 :=
    if E.InputSize s.fft_manager ≠ digits.NADC then E.Set s.fft_manager digits.NADC
    else s.fft_manager
  let old := s.per_channel_data.getD channel (ChannelData.zero E)
  let acc := sampleLoop E 0 digits.ADCs
    { max := 0, min := DBL_MAX, waveform := old.waveform, fft := fft0 }
  -- use mode to calculate baseline
  let baseline := Mode digits.ADCs
  -- calculate FFTs
  let fft1 := E.Execute acc.fft
  let bins := List.range (E.OutputSize fft1).toNat
  -- get Peaks
  let peaks := E.Peaks acc.waveform baseline cfg.n_smoothing_samples
    cfg.threshold_hi cfg.threshold_lo
  -- get noise samples
  let store := s.noise_store.set channel (makeNoiseSample E cfg peaks baseline digits.NADC)
  let noise := store.getD channel NoiseSample.zero
  let record : ChannelData E :=
    { old with
      channel_no := channel,
      waveform := acc.waveform,
      baseline := baseline,
      max := acc.max,
      min := acc.min,
      fft_real := old.fft_real ++ bins.map (E.ReOutputAt fft1),
      fft_imag := old.fft_imag ++ bins.map (E.ImOutputAt fft1),
      peaks := peaks,
      rms := E.RMS noise acc.waveform,
      noise_ranges := noise.ranges }
  { s with
    fft_manager := fft1,
    per_channel_data := s.per_channel_data.set channel record,
    noise_store := store,
    noise_oob := s.noise_oob || decide (s.noise_size ≤ channel) }

/-- `void SimpleDaqAnalysis::ProcessChannel(const raw::RawDigit &digits)`. The result is
`none` when the call does not return: with `NADC() ≥ 2 ^ 32` the `unsigned` index of the
sample loop never reaches `NADC()`. -/
def ProcessChannel (E : Ext) (cfg : AnalysisConfig E) (s : State E) (digits : RawDigit) :
    Option (State E) :=
  if digits.Channel < cfg.n_channels then
    if digits.NADC < 2 ^ 32 then some (processBody E cfg s digits) else none
  else some s

/-- The loop `for (auto const& digits: *raw_digits_handle) ProcessChannel(digits)`. -/
def processAll (E : Ext) (cfg : AnalysisConfig E) : State E → List RawDigit → Option (State E)
  | s, [] => some s
  | s, digits :: rest => (ProcessChannel E cfg s digits).bind (fun s1 => processAll E cfg s1 rest)

/-- The four `clear()` calls on one record. -/
def clearRecord (E : Ext) (r : ChannelData E) : ChannelData E :=
  { r with waveform := [], fft_real := [], fft_imag := [], peaks := [] }

/-- The loop "clear out containers from last iter" followed by `_noise_samples.clear()`. -/
def clearContainers (E : Ext) (cfg : AnalysisConfig E) (s : State E) : State E :=
  { s with
    per_channel_data := (List.range cfg.n_channels).foldl
      (fun l i => l.set i (clearRecord E (l.getD i (ChannelData.zero E)))) s.per_channel_data,
    noise_size := 0 }

/-- `unsigned last_channel_ind = i == 0 ? _config.n_channels - 1 : i - 1`. -/
def last_channel_ind (n_channels i : Nat) : Nat :=
  if i = 0 then usub n_channels 1 else i - 1

/-- `unsigned next_channel_ind = i == _config.n_channels - 1 ? 0 : i + 1`. -/
def next_channel_ind (n_channels i : Nat) : Nat :=
  if i = usub n_channels 1 then 0 else (i + 1) % 2 ^ 32

/-- The body of the loop over `i` in the cross-channel pass of `analyze`. -/
def crossStep (E : Ext) (cfg : AnalysisConfig E) (s : State E) (i : Nat) : State E :=
  let last := last_channel_ind cfg.n_channels i
  let next := next_channel_ind cfg.n_channels i
  let noise := fun k => s.noise_store.getD k NoiseSample.zero
  let wvf := fun k => (s.per_channel_data.getD k (ChannelData.zero E)).waveform
  let old := s.per_channel_data.getD i (ChannelData.zero E)
  let record : ChannelData E :=
    { old with
      -- cross channel correlations
      last_channel_correlation := E.Correlation (noise i) (wvf i) (noise last) (wvf last),
      next_channel_correlation := E.Correlation (noise i) (wvf i) (noise next) (wvf next),
      last_channel_sum_rms := E.SumRMS (noise i) (wvf i) (noise last) (wvf last),
      next_channel_sum_rms := E.SumRMS (noise i) (wvf i) (noise next) (wvf next) }
  { s with
    per_channel_data := s.per_channel_data.set i record,
    noise_oob := s.noise_oob || decide (s.noise_size ≤ i) || decide (s.noise_size ≤ last)
      || decide (s.noise_size ≤ next) }

/-- The loop "now calculate stuff that depends on stuff between channels". -/
def crossPass (E : Ext) (cfg : AnalysisConfig E) (s : State E) : State E :=
  (List.range cfg.n_channels).foldl (crossStep E cfg) s

/-- `void SimpleDaqAnalysis::analyze(art::Event const & event)`, the event being the
collection of `raw::RawDigit` read from it; `ReportEvent` only writes the records out. -/
def analyze (E : Ext) (cfg : AnalysisConfig E) (s : State E) (event : List RawDigit) :
    Option (State E) :=
  let s0 := { s with event_ind := uincr s.event_ind }
  -- clear out containers from last iter
  let s1 := clearContainers E cfg s0
  -- calculate per channel stuff
  (processAll E cfg s1 event).map (crossPass E cfg)

/-- The sizes fixed by the constructor: `n_channels` records and storage for `n_channels`
noise samples. -/
def State.Sized {E : Ext} (cfg : AnalysisConfig E) (s : State E) : Prop :=
  s.per_channel_data.length = cfg.n_channels ∧ s.noise_store.length = cfg.n_channels

/-- The record `r1` differs from `r` at most in the four cross-channel statistics. -/
def SameChannelPart {E : Ext} (r r1 : ChannelData E) : Prop :=
  r1.channel_no = r.channel_no ∧ r1.baseline = r.baseline ∧ r1.max = r.max ∧ r1.min = r.min ∧
    r1.rms = r.rms ∧ r1.waveform = r.waveform ∧ r1.fft_real = r.fft_real ∧
    r1.fft_imag = r.fft_imag ∧ r1.peaks = r.peaks ∧ r1.noise_ranges = r.noise_ranges

/-- The range `[start, end]` lies within the ticks `0, ..., nadc - 1` of a waveform. -/
def InTickBounds (nadc : Nat) (r : Nat × Nat) : Prop :=
  r.1 ≤ r.2 ∧ r.2 < nadc

instance (nadc : Nat) (r : Nat × Nat) : Decidable (InTickBounds nadc r) :=
  inferInstanceAs (Decidable (r.1 ≤ r.2 ∧ r.2 < nadc))

/-- The record of channel `c`, that is `_per_channel_data[c]`. -/
def State.record {E : Ext} (s : State E) (c : Nat) : ChannelData E :=
  s.per_channel_data.getD c (ChannelData.zero E)

/-- A concrete choice of the external routines, used to run the analysis on examples: the
transform keeps its input buffer, no peak is found and every statistic is 0. -/
def plainExt : Ext :=
  { Real := Int, zero := 0, Peak := Unit, FFT := List Int,
    newFFT := fun n => List.replicate (n.getD 0) 0,
    InputSize := fun b => b.length,
    Set := fun _ n => List.replicate n 0,
    InputAt := fun b i adc => b.set i adc,
    Execute := fun b => b,
    OutputSize := fun b => (b.length / 2 + 1 : Nat),
    ReOutputAt := fun _ _ => 0,
    ImOutputAt := fun _ _ => 0,
    Peaks := fun _ _ _ _ _ => [],
    NoiseSampleOfPeaks := fun _ baseline nadc =>
      { ranges := if nadc = 0 then [] else [(0, nadc - 1)], baseline := baseline },
    RMS := fun _ _ => 0,
    Correlation := fun _ _ _ _ => 0,
    SumRMS := fun _ _ _ _ => 0 }

/-- The default configuration of `AnalysisConfig::AnalysisConfig` with `n_channels`
channels. -/
def plainConfig (n_channels : Nat) : AnalysisConfig plainExt :=
  { threshold_hi := (100 : Int), threshold_lo := (-1 : Int), noise_range_sampling := 0, n_noise_samples := 20,
    n_smoothing_samples := 1, static_input_size := -1, n_channels := n_channels }

/-! ### The noise sample built from peaks

The constructor `NoiseSample(peaks, baseline, wvfm_size)` used in peak mode is defined in
`Noise.hh`/`Noise.cc`, outside the analysed sources. Section 4.4 of the specification: "in
mode (b) it derives the complement of the peak-covered ticks (clamped to valid bounds) as
the noise ranges, falling back to the full waveform if peaks cover it entirely"; section 4.3:
"each Peak records its start/end tick". -/

/-- Modelled from the spec: a list of ticks in increasing order cut into its maximal runs of
consecutive ticks, each run an inclusive `(start, end)` noise sample range. -/
def tickRuns : List Nat → List (Nat × Nat)
  | [] => []
  | t :: ts =>
    match tickRuns ts with
    | [] => [(t, t)]
    | (a, b) :: rest => if t + 1 = a then (t, b) :: rest else (t, t) :: (a, b) :: rest

/-- Modelled from the spec: tick `t` is covered by one of the peaks, given by their
`(start tick, end tick)`. -/
def peakCovers (spans : List (Nat × Nat)) (t : Nat) : Bool :=
  spans.any (fun p => decide (p.1 ≤ t ∧ t ≤ p.2))

/-- Modelled from the spec: the noise ranges of the constructor `NoiseSample(peaks, baseline,
wvfm_size)` of `Noise.hh`, which is not in the analysed sources: the runs of the ticks of
`0, ..., wvfm_size - 1` that no peak covers, and the full waveform when the peaks cover every
tick. -/
def noiseRangesOfPeaks (spans : List (Nat × Nat)) (wvfm_size : Nat) : List (Nat × Nat) :=
  let free := (List.range wvfm_size).filter (fun t => !peakCovers spans t)
  if free = [] then tickRuns (List.range wvfm_size) else tickRuns free

/-- Modelled from the spec: the external routines `E` with the constructor
`NoiseSample(peaks, baseline, wvfm_size)` as the specification describes it, `span` giving
the start and end tick that a peak records. -/
def withSpecNoise (E : Ext) (span : E.Peak → Nat × Nat) : Ext :=
  { E with
    NoiseSampleOfPeaks := fun peaks baseline wvfm_size =>
      { ranges := noiseRangesOfPeaks (peaks.map span) wvfm_size, baseline := baseline } }

/-- A second concrete choice of the external routines, used to run the analysis with peaks:
as `plainExt`, but a peak is a `(start tick, end tick)` pair, and the peaks found are the
runs of ticks whose sample exceeds the baseline by more than `threshold_hi`. -/
def peakExt : Ext :=
  { Real := Int, zero := 0, Peak := Nat × Nat, FFT := List Int,
    newFFT := fun n => List.replicate (n.getD 0) 0,
    InputSize := fun b => b.length,
    Set := fun _ n => List.replicate n 0,
    InputAt := fun b i adc => b.set i adc,
    Execute := fun b => b,
    OutputSize := fun b => (b.length / 2 + 1 : Nat),
    ReOutputAt := fun _ _ => 0,
    ImOutputAt := fun _ _ => 0,
    Peaks := fun waveform baseline _ threshold_hi _ =>
      tickRuns ((List.range waveform.length).filter
        (fun t => decide (waveform.getD t 0 - baseline > threshold_hi))),
    NoiseSampleOfPeaks := fun peaks baseline wvfm_size =>
      { ranges := noiseRangesOfPeaks peaks wvfm_size, baseline := baseline },
    RMS := fun _ _ => 0,
    Correlation := fun _ _ _ _ => 0,
    SumRMS := fun _ _ _ _ => 0 }

/-- The default configuration with `n_channels` channels, in peak mode
(`noise_range_sampling = 1`). -/
def peakConfig (n_channels : Nat) : AnalysisConfig (withSpecNoise peakExt id) :=
  { threshold_hi := (100 : Int), threshold_lo := (-1 : Int), noise_range_sampling := 1,
    n_noise_samples := 20, n_smoothing_samples := 1, static_input_size := -1,
    n_channels := n_channels }

/-! ## Facts about `Mode` -/

/-! ### Basic facts about one step of the pass -/

theorem modePass_nil : modePass [] = ModeState.init := rfl

theorem modePass_concat (xs : List Int) (x : Int) :
    modePass (xs ++ [x]) = modeStep (modePass xs) x := by
  simp [modePass, List.foldl_append]

theorem modeStep_home {s : ModeState} {val : Int} {h : Fin 10}
    (hf : Fin.find (fun i => s.modes i = val) = some h) :
    modeStep s val =
      { s with counters := Function.update s.counters h (uincr (s.counters h)) } := by
  simp [modeStep, hf]

theorem modeStep_invade {s : ModeState} {val : Int} {h : Fin 10}
    (hf : Fin.find (fun i => s.modes i = val) = none)
    (he : Fin.find (fun i => s.counters i = 0) = some h) :
    modeStep s val =
      { counters := Function.update s.counters h (uincr (s.counters h)),
        modes := Function.update s.modes h val } := by
  simp [modeStep, hf, he]

theorem modeStep_decl {s : ModeState} {val : Int}
    (hf : Fin.find (fun i => s.modes i = val) = none)
    (he : Fin.find (fun i => s.counters i = 0) = none) :
    modeStep s val =
      { s with counters := fun i => if s.counters i = 0 then 0 else s.counters i - 1 } := by
  simp [modeStep, hf, he]

/-! ### The final scan -/

theorem scan_fixed (s : ModeState) (l : List (Fin 10)) (acc : Nat × Int)
    (h : ∀ j ∈ l, s.counters j ≤ acc.1) : l.foldl (scanStep s) acc = acc := by
  induction l with
  | nil => rfl
  | cons j l ih =>
    have hj : ¬ s.counters j > acc.1 := by
      have := h j (List.mem_cons_self _ _)
      omega
    simp only [List.foldl_cons, scanStep, hj, if_false]
    exact ih (fun k hk => h k (List.mem_cons_of_mem _ hk))

theorem scan_strict_max (s : ModeState) (p : Fin 10) (l : List (Fin 10)) (acc : Nat × Int)
    (hp : p ∈ l) (hmax : ∀ j ∈ l, j ≠ p → s.counters j < s.counters p)
    (hacc : acc.1 < s.counters p) :
    l.foldl (scanStep s) acc = (s.counters p, s.modes p) := by
  induction l generalizing acc with
  | nil => simp at hp
  | cons j l ih =>
    by_cases hjp : j = p
    · subst hjp
      have hstep : scanStep s acc j = (s.counters j, s.modes j) := by
        simp [scanStep, hacc]
      rw [List.foldl_cons, hstep]
      apply scan_fixed
      intro k hk
      by_cases hkj : k = j
      · subst hkj; exact le_refl _
      · exact le_of_lt (hmax k (List.mem_cons_of_mem _ hk) hkj)
    · have hlt := hmax j (List.mem_cons_self _ _) hjp
      have hp' : p ∈ l := by
        rcases List.mem_cons.1 hp with h | h
        · exact absurd h.symm hjp
        · exact h
      rw [List.foldl_cons]
      apply ih _ hp' (fun k hk => hmax k (List.mem_cons_of_mem _ hk))
      unfold scanStep
      split_ifs
      · exact hlt
      · exact hacc

theorem scan_mem (s : ModeState) (l : List (Fin 10)) (acc : Nat × Int) :
    l.foldl (scanStep s) acc = acc ∨
      ∃ i, s.counters i ≠ 0 ∧ (l.foldl (scanStep s) acc).2 = s.modes i := by
  induction l generalizing acc with
  | nil => exact Or.inl rfl
  | cons j l ih =>
    rw [List.foldl_cons]
    rcases ih (scanStep s acc j) with h | h
    · rw [h]
      unfold scanStep
      split_ifs with hgt
      · exact Or.inr ⟨j, by omega, rfl⟩
      · exact Or.inl rfl
    · exact Or.inr h

/-- A slot whose counter is strictly above every other counter is the one returned. -/
theorem modeResult_strict_max (s : ModeState) (p : Fin 10)
    (hmax : ∀ j, j ≠ p → s.counters j < s.counters p) : modeResult s = s.modes p := by
  have hpos : (0 : Nat) < s.counters p := by
    by_cases h0 : p = 0
    · have h := hmax 1 (by rw [h0]; decide)
      omega
    · have h := hmax 0 (fun h => h0 h.symm)
      omega
  unfold modeResult
  rw [scan_strict_max s p (List.finRange 10) (0, 0) (List.mem_finRange p)
    (fun j _ hj => hmax j hj) hpos]

/-- The scan returns the initial `ret = 0` or the value of a slot with a positive counter. -/
theorem modeResult_cases (s : ModeState) :
    modeResult s = 0 ∨ ∃ i, s.counters i ≠ 0 ∧ modeResult s = s.modes i := by
  unfold modeResult
  rcases scan_mem s (List.finRange 10) (0, 0) with h | h
  · left; rw [h]
  · right; exact h

theorem modeResult_all_zero (s : ModeState) (h : ∀ i, s.counters i = 0) :
    modeResult s = 0 := by
  rcases modeResult_cases s with h0 | ⟨i, hi, _⟩
  · exact h0
  · exact absurd (h i) hi

/-! ### Constant waveforms -/

theorem modeStep_init (c : Int) : modeStep ModeState.init c = constState c 1 := by
  by_cases hc : c = 0
  · have hf : Fin.find (fun i => ModeState.init.modes i = c) = some 0 := by
      rw [Fin.find_eq_some_iff]
      exact ⟨by simp [ModeState.init, hc], fun j _ => Fin.zero_le j⟩
    rw [modeStep_home hf]
    subst hc
    simp only [constState, ModeState.init, uincr]
    congr 1
    funext i
    by_cases hi : i = 0 <;> simp [Function.update, hi]
  · have hf : Fin.find (fun i => ModeState.init.modes i = c) = none := by
      rw [Fin.find_eq_none_iff]
      intro i h
      exact hc (by simpa [ModeState.init] using h.symm)
    have he : Fin.find (fun i => ModeState.init.counters i = 0) = some 0 := by
      rw [Fin.find_eq_some_iff]
      exact ⟨by simp [ModeState.init], fun j _ => Fin.zero_le j⟩
    rw [modeStep_invade hf he]
    simp [constState, ModeState.init, uincr]

theorem modeStep_constState (c : Int) (k : Nat) :
    modeStep (constState c k) c = constState c ((k + 1) % 2 ^ 32) := by
  have hf : Fin.find (fun i => (constState c k).modes i = c) = some 0 := by
    rw [Fin.find_eq_some_iff]
    exact ⟨by simp [constState], fun j _ => Fin.zero_le j⟩
  rw [modeStep_home hf]
  simp [constState, uincr]

theorem modePass_replicate_succ (c : Int) (n : Nat) :
    modePass (List.replicate (n + 1) c) = constState c ((n + 1) % 2 ^ 32) := by
  induction n with
  | zero =>
    show modeStep ModeState.init c = _
    rw [modeStep_init]
    rfl
  | succ n ih =>
    rw [List.replicate_succ', modePass_concat, ih, modeStep_constState]
    congr 1
    omega

theorem modeResult_constState (c : Int) (k : Nat) :
    modeResult (constState c k) = if k = 0 then 0 else c := by
  split_ifs with hk
  · apply modeResult_all_zero
    intro i
    subst hk
    by_cases hi : i = 0 <;> simp [constState, Function.update, hi]
  · have h := modeResult_strict_max (constState c k) 0 (by
      intro j hj
      simp only [constState, Function.update_same, Function.update_noteq hj]
      omega)
    simpa [constState] using h

/-- On `n` copies of `c` the function returns `c`, except that it returns the initial
`ret = 0` when the `unsigned` counter has wrapped to zero. -/
theorem Mode_replicate (c : Int) (n : Nat) :
    Mode (List.replicate n c) = if n % 2 ^ 32 = 0 then 0 else c := by
  cases n with
  | zero => simp [Mode, modePass, modeResult_all_zero, ModeState.init]
  | succ n =>
    unfold Mode
    rw [modePass_replicate_succ, modeResult_constState]

/-! ### Values held by occupied slots come from the input -/

theorem modePass_counter_mem (xs : List Int) :
    ∀ i, (modePass xs).counters i ≠ 0 → (modePass xs).modes i ∈ xs := by
  induction xs using List.reverseRecOn with
  | nil => intro i h; exact absurd rfl h
  | append_singleton xs x ih =>
    intro i hi
    rw [modePass_concat] at hi ⊢
    rw [List.mem_append, List.mem_singleton]
    cases hf : Fin.find (fun i => (modePass xs).modes i = x) with
    | some h =>
      rw [modeStep_home hf] at hi ⊢
      by_cases hih : i = h
      · right
        rw [hih]
        exact Fin.find_spec _ hf
      · left
        simp only [Function.update_noteq hih] at hi
        exact ih i hi
    | none =>
      cases he : Fin.find (fun i => (modePass xs).counters i = 0) with
      | some h =>
        rw [modeStep_invade hf he] at hi ⊢
        by_cases hih : i = h
        · right
          rw [hih]
          simp
        · left
          simp only [Function.update_noteq hih] at hi ⊢
          exact ih i hi
      | none =>
        rw [modeStep_decl hf he] at hi ⊢
        left
        apply ih i
        intro h0
        simp [h0] at hi

/-! ### The three outcomes of one step -/

theorem uincr_zero : uincr 0 = 1 := by decide

theorem uincr_le (c : Nat) : uincr c ≤ c + 1 := Nat.mod_le _ _

theorem uincr_of_lt {c : Nat} (h : c + 1 < 2 ^ 32) : uincr c = c + 1 := Nat.mod_eq_of_lt h

/-- One step either increments the first slot holding the value, or writes the value with
counter one into the first slot whose counter is zero, or lowers all ten counters. -/
theorem modeStep_cases (s : ModeState) (val : Int) :
    (∃ h, s.modes h = val ∧ (∀ q, q < h → s.modes q ≠ val) ∧
        modeStep s val = setSlot s h val (uincr (s.counters h))) ∨
    (∃ h, (∀ i, s.modes i ≠ val) ∧ s.counters h = 0 ∧
        modeStep s val = setSlot s h val 1) ∨
    ((∀ i, s.modes i ≠ val) ∧ (∀ i, s.counters i ≠ 0) ∧ modeStep s val = declAll s) := by
  cases hf : Fin.find (fun i => s.modes i = val) with
  | some h =>
    left
    have hh : s.modes h = val := Fin.find_spec _ hf
    refine ⟨h, hh, fun q hq => Fin.find_min hf hq, ?_⟩
    rw [modeStep_home hf, setSlot, ← hh, Function.update_eq_self]
  | none =>
    right
    have hno : ∀ i, s.modes i ≠ val := fun i => Fin.find_eq_none_iff.1 hf i
    cases he : Fin.find (fun i => s.counters i = 0) with
    | some h =>
      left
      have hh : s.counters h = 0 := Fin.find_spec _ he
      refine ⟨h, hno, hh, ?_⟩
      rw [modeStep_invade hf he, hh, uincr_zero]
      rfl
    | none =>
      right
      exact ⟨hno, fun i => Fin.find_eq_none_iff.1 he i, modeStep_decl hf he⟩

/-- No counter exceeds the number of samples seen. -/
theorem modePass_counter_le (xs : List Int) : ∀ i, (modePass xs).counters i ≤ xs.length := by
  induction xs using List.reverseRecOn with
  | nil => intro i; exact le_refl _
  | append_singleton xs x ih =>
    intro i
    rw [modePass_concat, List.length_append, List.length_singleton]
    rcases modeStep_cases (modePass xs) x with ⟨h, _, _, e⟩ | ⟨h, _, _, e⟩ | ⟨_, _, e⟩
    · rw [e]
      by_cases hi : i = h
      · subst hi
        simp only [setSlot, Function.update_same]
        have := uincr_le ((modePass xs).counters i)
        have := ih i
        omega
      · simp only [setSlot, Function.update_noteq hi]
        have := ih i
        omega
    · rw [e]
      by_cases hi : i = h
      · subst hi
        simp only [setSlot, Function.update_same]
        omega
      · simp only [setSlot, Function.update_noteq hi]
        have := ih i
        omega
    · rw [e]
      simp only [declAll]
      have := ih i
      split_ifs <;> omega

theorem FirstHome.of_init : FirstHome ModeState.init := fun _ _ _ h => absurd rfl h

theorem FirstHome.step {s : ModeState} (hs : FirstHome s) (val : Int) :
    FirstHome (modeStep s val) := by
  rcases modeStep_cases s val with ⟨h, hh, hmin, e⟩ | ⟨h, hno, _, e⟩ | ⟨_, _, e⟩
  · rw [e]
    intro p q hqp hp
    simp only [setSlot, ← hh, Function.update_eq_self] at hp ⊢
    by_cases hph : p = h
    · subst hph
      rw [hh]
      exact hmin q hqp
    · rw [Function.update_noteq hph] at hp
      exact hs p q hqp hp
  · rw [e]
    intro p q hqp hp
    simp only [setSlot] at hp ⊢
    by_cases hph : p = h
    · subst hph
      have hq : q ≠ p := ne_of_lt hqp
      rw [Function.update_same, Function.update_noteq hq]
      exact hno q
    · rw [Function.update_noteq hph] at hp
      rw [Function.update_noteq hph]
      by_cases hqh : q = h
      · subst hqh
        rw [Function.update_same]
        exact fun h' => hno p h'.symm
      · rw [Function.update_noteq hqh]
        exact hs p q hqp hp
  · rw [e]
    intro p q hqp hp
    simp only [declAll] at hp ⊢
    apply hs p q hqp
    intro h0
    simp [h0] at hp

theorem modePass_firstHome (xs : List Int) : FirstHome (modePass xs) := by
  induction xs using List.reverseRecOn with
  | nil => exact FirstHome.of_init
  | append_singleton xs x ih =>
    rw [modePass_concat]
    exact ih.step x

theorem FirstHome.distinct {s : ModeState} (hs : FirstHome s) : Distinct s := by
  intro p q hp hq hm
  rcases lt_trichotomy p q with h | h | h
  · exact absurd hm (hs q p h hq)
  · exact h
  · exact absurd hm.symm (hs p q h hp)

/-! ### Majority values -/

theorem sum_change_one (F G : Fin 10 → Nat) (h : Fin 10) (hFG : ∀ i, i ≠ h → G i = F i) :
    (∑ i, G i) + F h = (∑ i, F i) + G h := by
  rw [← Finset.add_sum_erase Finset.univ G (Finset.mem_univ h),
    ← Finset.add_sum_erase Finset.univ F (Finset.mem_univ h)]
  have : ∑ i in Finset.univ.erase h, G i = ∑ i in Finset.univ.erase h, F i :=
    Finset.sum_congr rfl (fun i hi => hFG i (Finset.ne_of_mem_erase hi))
  omega

theorem heldBy_setSlot (s : ModeState) (h : Fin 10) (m : Int) (c : Nat) (v : Int) :
    heldBy (setSlot s h m c) v + (if s.modes h = v then s.counters h else 0) =
      heldBy s v + (if m = v then c else 0) := by
  have := sum_change_one (fun i => if s.modes i = v then s.counters i else 0)
    (fun i => if (setSlot s h m c).modes i = v then (setSlot s h m c).counters i else 0) h
    (fun i hi => by simp [setSlot, Function.update_noteq hi])
  simpa [heldBy, setSlot] using this

theorem heldByOthers_setSlot (s : ModeState) (h : Fin 10) (m : Int) (c : Nat) (v : Int) :
    heldByOthers (setSlot s h m c) v + (if s.modes h = v then 0 else s.counters h) =
      heldByOthers s v + (if m = v then 0 else c) := by
  have := sum_change_one (fun i => if s.modes i = v then 0 else s.counters i)
    (fun i => if (setSlot s h m c).modes i = v then 0 else (setSlot s h m c).counters i) h
    (fun i hi => by simp [setSlot, Function.update_noteq hi])
  simpa [heldByOthers, setSlot] using this

theorem heldByOthers_declAll_le (s : ModeState) (v : Int) :
    heldByOthers (declAll s) v ≤ heldByOthers s v := by
  apply Finset.sum_le_sum
  intro i _
  simp only [declAll]
  split_ifs <;> omega

theorem heldByOthers_declAll_lt (s : ModeState) (v : Int) (hno : ∀ i, s.modes i ≠ v)
    (hfull : ∀ i, s.counters i ≠ 0) : heldByOthers (declAll s) v < heldByOthers s v := by
  apply Finset.sum_lt_sum
  · intro i _
    simp only [declAll]
    split_ifs <;> omega
  · refine ⟨0, Finset.mem_univ _, ?_⟩
    have := hfull 0
    simp only [declAll, hno 0, if_false, this]
    omega

theorem heldBy_of_none (s : ModeState) (v : Int) (hno : ∀ i, s.modes i ≠ v) :
    heldBy s v = 0 := by
  apply Finset.sum_eq_zero
  intro i _
  simp [hno i]

/-- When one slot is the only one that can hold `v` with a positive counter, the counters
held by `v` sum to that slot's contribution. -/
theorem heldBy_single (s : ModeState) (v : Int) (p : Fin 10)
    (h : ∀ i, i ≠ p → s.modes i = v → s.counters i = 0) :
    heldBy s v = if s.modes p = v then s.counters p else 0 := by
  unfold heldBy
  rw [Finset.sum_eq_single p]
  · intro i _ hi
    split_ifs with hm
    · exact h i hi hm
    · rfl
  · intro hp
    exact absurd (Finset.mem_univ p) hp

theorem heldBy_declAll (s : ModeState) (v : Int) (hd : Distinct s)
    (hfull : ∀ i, s.counters i ≠ 0) : heldBy s v ≤ heldBy (declAll s) v + 1 := by
  by_cases hex : ∃ p, s.modes p = v
  · obtain ⟨p, hp⟩ := hex
    have huniq : ∀ i, i ≠ p → s.modes i ≠ v := by
      intro i hi hm
      exact hi (hd i p (hfull i) (hfull p) (hm.trans hp.symm))
    rw [heldBy_single s v p (fun i hi hm => absurd hm (huniq i hi)),
      heldBy_single (declAll s) v p (fun i hi hm => absurd hm (huniq i hi))]
    simp only [declAll, hp, if_true]
    split_ifs <;> omega
  · have hno : ∀ i, s.modes i ≠ v := fun i hi => hex ⟨i, hi⟩
    rw [heldBy_of_none s v hno]
    exact Nat.zero_le _

/-- The counters held by `v` stay ahead of the others by at least the lead of `v` among the
samples seen, as long as no counter wraps. -/
theorem modePass_lead (v : Int) (xs : List Int) (hlen : xs.length < 2 ^ 32) :
    heldByOthers (modePass xs) v + 2 * xs.count v ≤ heldBy (modePass xs) v + xs.length := by
  induction xs using List.reverseRecOn with
  | nil => simp [heldBy, heldByOthers, modePass, ModeState.init]
  | append_singleton xs x ih =>
    rw [List.length_append, List.length_singleton] at hlen
    have ih := ih (by omega)
    have hle := modePass_counter_le xs
    have hfh := modePass_firstHome xs
    rw [modePass_concat, List.length_append, List.length_singleton, List.count_append]
    rcases modeStep_cases (modePass xs) x with ⟨h, hh, _, e⟩ | ⟨h, hno, hz, e⟩ | ⟨hno, hfull, e⟩
    · have hinc : uincr ((modePass xs).counters h) = (modePass xs).counters h + 1 :=
        uincr_of_lt (by have := hle h; omega)
      have hA := heldBy_setSlot (modePass xs) h x (uincr ((modePass xs).counters h)) v
      have hB := heldByOthers_setSlot (modePass xs) h x (uincr ((modePass xs).counters h)) v
      rw [e, hinc]
      rw [hh, hinc] at hA hB
      by_cases hxv : x = v
      · simp only [hxv, if_true] at hA hB
        simp only [hxv, List.count_singleton_self]
        omega
      · simp only [hxv, if_false] at hA hB
        have hc : List.count v [x] = 0 := List.count_eq_zero.2 (by simpa using Ne.symm hxv)
        rw [hc]
        omega
    · have hA := heldBy_setSlot (modePass xs) h x 1 v
      have hB := heldByOthers_setSlot (modePass xs) h x 1 v
      rw [e]
      rw [hz] at hA hB
      by_cases hxv : x = v
      · simp only [hxv, if_true] at hA hB
        simp only [hxv, List.count_singleton_self]
        simp only [ite_self] at hA hB
        omega
      · simp only [hxv, if_false] at hA hB
        have hc : List.count v [x] = 0 := List.count_eq_zero.2 (by simpa using Ne.symm hxv)
        rw [hc]
        simp only [ite_self] at hA hB
        omega
    · rw [e]
      by_cases hxv : x = v
      · subst hxv
        have h1 := heldByOthers_declAll_lt (modePass xs) x hno hfull
        have h2 := heldBy_of_none (modePass xs) x hno
        simp only [List.count_singleton_self]
        omega
      · have h1 := heldByOthers_declAll_le (modePass xs) v
        have h2 := heldBy_declAll (modePass xs) v hfh.distinct hfull
        have hc : List.count v [x] = 0 := List.count_eq_zero.2 (by simpa using Ne.symm hxv)
        rw [hc]
        omega

theorem scan_ge (s : ModeState) (l : List (Fin 10)) (acc : Nat × Int) :
    acc.1 ≤ (l.foldl (scanStep s) acc).1 ∧ ∀ j ∈ l, s.counters j ≤ (l.foldl (scanStep s) acc).1 := by
  induction l generalizing acc with
  | nil => exact ⟨le_refl _, fun j hj => absurd hj (List.not_mem_nil j)⟩
  | cons k l ih =>
    rw [List.foldl_cons]
    obtain ⟨h1, h2⟩ := ih (scanStep s acc k)
    have hk : acc.1 ≤ (scanStep s acc k).1 ∧ s.counters k ≤ (scanStep s acc k).1 := by
      unfold scanStep
      split_ifs with h
      · exact ⟨le_of_lt h, le_refl _⟩
      · exact ⟨le_refl _, by omega⟩
    refine ⟨le_trans hk.1 h1, ?_⟩
    intro j hj
    rcases List.mem_cons.1 hj with h | h
    · rw [h]; exact le_trans hk.2 h1
    · exact h2 j h

/-- The scan returns the value of a slot with a positive counter, or the initial `ret = 0`
when all ten counters are zero. -/
theorem modeResult_zero_or_slot (s : ModeState) :
    (modeResult s = 0 ∧ ∀ i, s.counters i = 0) ∨
      ∃ i, s.counters i ≠ 0 ∧ modeResult s = s.modes i := by
  rcases scan_mem s (List.finRange 10) (0, 0) with h | h
  · left
    refine ⟨by unfold modeResult; rw [h], ?_⟩
    intro i
    have := (scan_ge s (List.finRange 10) (0, 0)).2 i (List.mem_finRange i)
    rw [h] at this
    exact Nat.le_zero.1 this
  · right
    exact h

/-! ## Agreement of `Mode` with the reference algorithm -/

theorem refPass_concat (xs : List Int) (x : Int) :
    refPass (xs ++ [x]) = refStep (refPass xs) x := by
  simp [refPass, List.foldl_append]

theorem refStep_cases (r : ModeState) (val : Int) :
    (∃ h, r.counters h ≠ 0 ∧ r.modes h = val ∧
        refStep r val = setSlot r h val (r.counters h + 1)) ∨
    (∃ h, (∀ i, r.counters i ≠ 0 → r.modes i ≠ val) ∧ r.counters h = 0 ∧
        refStep r val = setSlot r h val 1) ∨
    ((∀ i, r.counters i ≠ 0 → r.modes i ≠ val) ∧ (∀ i, r.counters i ≠ 0) ∧
        refStep r val = declAll r) := by
  cases hf : Fin.find (fun i => r.counters i ≠ 0 ∧ r.modes i = val) with
  | some h =>
    left
    have hh : r.counters h ≠ 0 ∧ r.modes h = val := Fin.find_spec _ hf
    refine ⟨h, hh.1, hh.2, ?_⟩
    simp only [refStep, hf, setSlot]
    rw [← hh.2, Function.update_eq_self]
  | none =>
    right
    have hno : ∀ i, r.counters i ≠ 0 → r.modes i ≠ val :=
      fun i hc hm => Fin.find_eq_none_iff.1 hf i ⟨hc, hm⟩
    cases he : Fin.find (fun i => r.counters i = 0) with
    | some h =>
      left
      exact ⟨h, hno, Fin.find_spec _ he, by simp only [refStep, hf, he, setSlot]⟩
    | none =>
      right
      have hfull : ∀ i, r.counters i ≠ 0 := fun i => Fin.find_eq_none_iff.1 he i
      refine ⟨hno, hfull, ?_⟩
      simp only [refStep, hf, he, declAll]
      congr 1
      funext i
      simp [hfull i]

theorem Distinct.keep_slot {r : ModeState} (hr : Distinct r) {h : Fin 10} {val : Int}
    (hc : r.counters h ≠ 0) (hm : r.modes h = val) (c : Nat) :
    Distinct (setSlot r h val c) := by
  intro p q hp hq hpq
  simp only [setSlot, ← hm, Function.update_eq_self] at hp hq hpq
  apply hr p q _ _ hpq
  · by_cases hph : p = h
    · rw [hph]; exact hc
    · rwa [Function.update_noteq hph] at hp
  · by_cases hqh : q = h
    · rw [hqh]; exact hc
    · rwa [Function.update_noteq hqh] at hq

theorem Distinct.fresh_slot {r : ModeState} (hr : Distinct r) {val : Int}
    (hno : ∀ i, r.counters i ≠ 0 → r.modes i ≠ val) (h : Fin 10) (c : Nat) :
    Distinct (setSlot r h val c) := by
  intro p q hp hq hpq
  simp only [setSlot] at hp hq hpq
  by_cases hph : p = h
  · by_cases hqh : q = h
    · rw [hph, hqh]
    · exfalso
      rw [hph, Function.update_same, Function.update_noteq hqh] at hpq
      rw [Function.update_noteq hqh] at hq
      exact hno q hq hpq.symm
  · rw [Function.update_noteq hph] at hp hpq
    by_cases hqh : q = h
    · exfalso
      rw [hqh, Function.update_same] at hpq
      exact hno p hp hpq
    · rw [Function.update_noteq hqh] at hq hpq
      exact hr p q hp hq hpq

theorem Distinct.lowered {r : ModeState} (hr : Distinct r) : Distinct (declAll r) := by
  intro p q hp hq hpq
  simp only [DaqAnalysis.declAll] at hp hq hpq
  apply hr p q _ _ hpq
  · intro h0; simp [h0] at hp
  · intro h0; simp [h0] at hq

theorem Sub.raise_both {s r : ModeState} (hsr : Sub s r) (hs : Distinct s)
    {h j : Fin 10} {val : Int} {k : Nat} (hk : k ≠ 0)
    (hsm : s.modes h = val) (hsc : s.counters h = k)
    (hrm : r.modes j = val) (c : Nat) :
    Sub (setSlot s h val c) (setSlot r j val c) := by
  intro v k' hk' ⟨i, hm, hc⟩
  by_cases hih : i = h
  · subst hih
    simp only [setSlot, Function.update_same] at hm hc
    exact ⟨j, by simp [setSlot, hm], by simp [setSlot, hc]⟩
  · simp only [setSlot, Function.update_noteq hih] at hm hc
    obtain ⟨j', hm', hc'⟩ := hsr v k' hk' ⟨i, hm, hc⟩
    have hj : j' ≠ j := by
      intro hjj
      apply hih
      apply hs i h (by omega) (by omega)
      rw [hm, hsm, ← hrm, ← hjj, hm']
    exact ⟨j', by simp [setSlot, Function.update_noteq hj, hm'],
      by simp [setSlot, Function.update_noteq hj, hc']⟩

theorem Sub.occupy_both {s r : ModeState} (hsr : Sub s r) {h e : Fin 10}
    (hre : r.counters e = 0) (val : Int) (c : Nat) :
    Sub (setSlot s h val c) (setSlot r e val c) := by
  intro v k' hk' ⟨i, hm, hc⟩
  by_cases hih : i = h
  · subst hih
    simp only [setSlot, Function.update_same] at hm hc
    exact ⟨e, by simp [setSlot, hm], by simp [setSlot, hc]⟩
  · simp only [setSlot, Function.update_noteq hih] at hm hc
    obtain ⟨j', hm', hc'⟩ := hsr v k' hk' ⟨i, hm, hc⟩
    have hj : j' ≠ e := by
      intro hjj
      rw [hjj, hre] at hc'
      exact hk' hc'.symm
    exact ⟨j', by simp [setSlot, Function.update_noteq hj, hm'],
      by simp [setSlot, Function.update_noteq hj, hc']⟩

theorem Sub.lower_both {s r : ModeState} (hsr : Sub s r) : Sub (declAll s) (declAll r) := by
  intro v k' hk' ⟨i, hm, hc⟩
  simp only [DaqAnalysis.declAll] at hm hc
  have hc1 : s.counters i = k' + 1 := by
    split_ifs at hc <;> omega
  obtain ⟨j, hm', hc'⟩ := hsr v (k' + 1) (by omega) ⟨i, hm, hc1⟩
  exact ⟨j, hm', by simp [DaqAnalysis.declAll, hc']⟩

/-- When all ten slots of `s` are occupied by different values and each has its match in
`r`, all ten slots of `r` are occupied. -/
theorem Sub.full {s r : ModeState} (hsr : Sub s r) (hs : Distinct s)
    (hfull : ∀ i, s.counters i ≠ 0) : ∀ j, r.counters j ≠ 0 := by
  have hex : ∀ i, ∃ j, r.modes j = s.modes i ∧ r.counters j = s.counters i :=
    fun i => hsr _ _ (hfull i) ⟨i, rfl, rfl⟩
  choose φ hφm hφc using hex
  have hinj : Function.Injective φ := by
    intro a b hab
    apply hs a b (hfull a) (hfull b)
    rw [← hφm a, ← hφm b, hab]
  have hsurj : Function.Surjective φ := Finite.injective_iff_surjective.1 hinj
  intro j
  obtain ⟨i, hi⟩ := hsurj j
  rw [← hi, hφc]
  exact hfull i

/-- The slots of `Mode` and of the reference algorithm hold the same occupied
(value, count) pairs as long as no `unsigned` counter can wrap. -/
theorem modePass_sim (xs : List Int) (hlen : xs.length < 2 ^ 32) :
    Sub (modePass xs) (refPass xs) ∧ Sub (refPass xs) (modePass xs) ∧
      Distinct (refPass xs) := by
  induction xs using List.reverseRecOn with
  | nil =>
    refine ⟨?_, ?_, ?_⟩
    · rintro v k hk ⟨i, _, hc⟩
      exact absurd hc.symm hk
    · rintro v k hk ⟨i, _, hc⟩
      exact absurd hc.symm hk
    · intro p q hp
      exact absurd rfl hp
  | append_singleton xs x ih =>
    rw [List.length_append, List.length_singleton] at hlen
    obtain ⟨hsr, hrs, hdr⟩ := ih (by omega)
    have hle := modePass_counter_le xs
    have hfh := modePass_firstHome xs
    have hds := hfh.distinct
    rw [modePass_concat, refPass_concat]
    -- an occupied slot of the code holding `x` is the slot found by the lookup by value
    have hfound : ∀ i h, (modePass xs).modes i = x → (modePass xs).counters i ≠ 0 →
        (modePass xs).modes h = x → (∀ q, q < h → (modePass xs).modes q ≠ x) → h = i := by
      intro i h hm hc hhm hmin
      rcases lt_trichotomy h i with hlt | heq | hgt
      · exact absurd (hhm.trans hm.symm) (hfh i h hlt hc)
      · exact heq
      · exact absurd hm (hmin i hgt)
    rcases refStep_cases (refPass xs) x with
      ⟨j, hjc, hjm, er⟩ | ⟨e, hrno, hre, er⟩ | ⟨hrno, hrfull, er⟩
    · -- the reference increments the occupied slot `j`
      obtain ⟨i, him, hic⟩ := hrs x _ hjc ⟨j, hjm, rfl⟩
      have hic0 : (modePass xs).counters i ≠ 0 := by rw [hic]; exact hjc
      rcases modeStep_cases (modePass xs) x with
        ⟨h, hh, hmin, es⟩ | ⟨h, hno, _, _⟩ | ⟨hno, _, _⟩
      · have hhi : h = i := hfound i h him hic0 hh hmin
        subst hhi
        have hinc : uincr ((modePass xs).counters h) = (refPass xs).counters j + 1 := by
          rw [uincr_of_lt (by have := hle h; omega), hic]
        rw [es, er, hinc]
        exact ⟨Sub.raise_both hsr hds hic0 hh rfl hjm _,
          Sub.raise_both hrs hdr hjc hjm rfl hh _,
          hdr.keep_slot hjc hjm _⟩
      · exact absurd him (hno i)
      · exact absurd him (hno i)
    · -- the reference occupies the empty slot `e`
      have hsno : ∀ i, (modePass xs).counters i ≠ 0 → (modePass xs).modes i ≠ x := by
        intro i hc hm
        obtain ⟨j, hjm, hjc⟩ := hsr x _ hc ⟨i, hm, rfl⟩
        exact hrno j (by rw [hjc]; exact hc) hjm
      rcases modeStep_cases (modePass xs) x with
        ⟨h, hh, _, es⟩ | ⟨h, _, hz, es⟩ | ⟨_, hfull, _⟩
      · have hz : (modePass xs).counters h = 0 := by
          by_contra hc
          exact hsno h hc hh
        rw [es, er, hz, uincr_zero]
        exact ⟨Sub.occupy_both hsr hre x 1, Sub.occupy_both hrs hz x 1,
          hdr.fresh_slot hrno e 1⟩
      · rw [es, er]
        exact ⟨Sub.occupy_both hsr hre x 1, Sub.occupy_both hrs hz x 1,
          hdr.fresh_slot hrno e 1⟩
      · exact absurd hre (Sub.full hsr hds hfull e)
    · -- the reference lowers every count
      have hsno : ∀ i, (modePass xs).counters i ≠ 0 → (modePass xs).modes i ≠ x := by
        intro i hc hm
        obtain ⟨j, hjm, hjc⟩ := hsr x _ hc ⟨i, hm, rfl⟩
        exact hrno j (by rw [hjc]; exact hc) hjm
      have hsfull := Sub.full hrs hdr hrfull
      rcases modeStep_cases (modePass xs) x with
        ⟨h, hh, _, _⟩ | ⟨h, _, hz, _⟩ | ⟨_, _, es⟩
      · exact absurd hh (hsno h (hsfull h))
      · exact absurd hz (hsfull h)
      · rw [es, er]
        exact ⟨hsr.lower_both, hrs.lower_both, hdr.lowered⟩

theorem card_slot_eq (s : ModeState) (hs : Distinct s) (v : Int) (k : Nat) (hk : k ≠ 0) :
    (Finset.univ.filter (fun i => s.modes i = v ∧ s.counters i = k)).card =
      if ∃ i, s.modes i = v ∧ s.counters i = k then 1 else 0 := by
  split_ifs with hex
  · obtain ⟨i, hm, hc⟩ := hex
    rw [Finset.card_eq_one]
    refine ⟨i, ?_⟩
    ext j
    simp only [Finset.mem_filter, Finset.mem_univ, true_and, Finset.mem_singleton]
    constructor
    · rintro ⟨hjm, hjc⟩
      exact hs j i (by omega) (by omega) (hjm.trans hm.symm)
    · rintro rfl
      exact ⟨hm, hc⟩
  · rw [Finset.card_eq_zero, Finset.filter_eq_empty_iff]
    intro j _ hj
    exact hex ⟨j, hj⟩

theorem count_occupied (s : ModeState) (v : Int) (k : Nat) :
    Multiset.count (v, k) (occupied s) =
      if 0 < k then (Finset.univ.filter (fun i => s.modes i = v ∧ s.counters i = k)).card
      else 0 := by
  unfold occupied
  rw [Multiset.count_filter]
  split_ifs with hk
  · rw [Multiset.count_map]
    rw [Finset.card_def, Finset.filter_val]
    congr 1
    apply Multiset.filter_congr
    intro i _
    constructor
    · intro h
      exact ⟨(congrArg Prod.fst h).symm, (congrArg Prod.snd h).symm⟩
    · rintro ⟨h1, h2⟩
      rw [h1, h2]
  · rfl

/-- Two slot states with pairwise different occupied values and the same occupied
(value, count) pairs have the same multiset of such pairs. -/
theorem occupied_eq_of_sub {s r : ModeState} (hs : Distinct s) (hr : Distinct r)
    (hsr : Sub s r) (hrs : Sub r s) : occupied s = occupied r := by
  ext ⟨v, k⟩
  rw [count_occupied, count_occupied]
  split_ifs with hk
  · have hk0 : k ≠ 0 := by omega
    rw [card_slot_eq s hs v k hk0, card_slot_eq r hr v k hk0]
    have hiff : (∃ i, s.modes i = v ∧ s.counters i = k) ↔
        (∃ i, r.modes i = v ∧ r.counters i = k) := ⟨hsr v k hk0, hrs v k hk0⟩
    simp only [hiff]
  · rfl

/-! ### Constant waveforms in both algorithms -/

theorem refStep_init (c : Int) : refStep ModeState.init c = constState c 1 := by
  have hf : Fin.find (fun i => ModeState.init.counters i ≠ 0 ∧ ModeState.init.modes i = c)
      = none := by
    rw [Fin.find_eq_none_iff]
    intro i h
    exact h.1 rfl
  have he : Fin.find (fun i => ModeState.init.counters i = 0) = some 0 := by
    rw [Fin.find_eq_some_iff]
    exact ⟨rfl, fun j _ => Fin.zero_le j⟩
  simp only [refStep, hf, he]
  rfl

theorem refStep_constState (c : Int) (k : Nat) (hk : k ≠ 0) :
    refStep (constState c k) c = constState c (k + 1) := by
  have hf : Fin.find (fun i => (constState c k).counters i ≠ 0 ∧ (constState c k).modes i = c)
      = some 0 := by
    rw [Fin.find_eq_some_iff]
    exact ⟨⟨by simpa [constState] using hk, by simp [constState]⟩, fun j _ => Fin.zero_le j⟩
  simp only [refStep, hf]
  simp [constState]

theorem refPass_replicate (c : Int) (n : Nat) (hn : n ≠ 0) :
    refPass (List.replicate n c) = constState c n := by
  induction n with
  | zero => exact absurd rfl hn
  | succ n ih =>
    by_cases h0 : n = 0
    · subst h0
      show refStep ModeState.init c = _
      exact refStep_init c
    · rw [List.replicate_succ', refPass_concat, ih h0, refStep_constState c n h0]

theorem modePass_replicate (c : Int) (n : Nat) (hn : n ≠ 0) :
    modePass (List.replicate n c) = constState c (n % 2 ^ 32) := by
  obtain ⟨m, rfl⟩ : ∃ m, n = m + 1 := ⟨n - 1, by omega⟩
  exact modePass_replicate_succ c m

/-! ## Facts about `ProcessChannel` and `analyze` -/

theorem DBL_MAX_eq : DBL_MAX = 2 ^ 1024 - 2 ^ 971 := by
  unfold DBL_MAX
  norm_num

theorem usub_one {n : Nat} (h1 : 1 ≤ n) (h2 : n < 2 ^ 32) : usub n 1 = n - 1 := by
  unfold usub
  rw [Nat.mod_eq_of_lt h2]
  norm_num
  omega

theorem getD_set_self {α : Type} (l : List α) (i : Nat) (a d : α) (h : i < l.length) :
    (l.set i a).getD i d = a := by
  simp [List.getD_eq_getElem?_getD, List.getElem?_set_self h]

theorem getD_set_ne {α : Type} (l : List α) {i j : Nat} (a d : α) (h : i ≠ j) :
    (l.set i a).getD j d = l.getD j d := by
  simp [List.getD_eq_getElem?_getD, List.getElem?_set_ne h]

/-! ### One digit -/

theorem ProcessChannel_isSome (E : Ext) (cfg : AnalysisConfig E) (s : State E) (d : RawDigit)
    (h : d.NADC < 2 ^ 32) : (ProcessChannel E cfg s d).isSome = true := by
  unfold ProcessChannel
  by_cases hc : d.Channel < cfg.n_channels
  · simp only [hc, h, if_true, Option.isSome_some]
  · simp only [hc, if_false, Option.isSome_some]

theorem ProcessChannel_eq_none (E : Ext) (cfg : AnalysisConfig E) (s : State E) (d : RawDigit)
    (hc : d.Channel < cfg.n_channels) (h : 2 ^ 32 ≤ d.NADC) :
    ProcessChannel E cfg s d = none := by
  have h' : ¬ d.NADC < 2 ^ 32 := by omega
  simp only [ProcessChannel, hc, h', if_true, if_false]

theorem ProcessChannel_cases {E : Ext} {cfg : AnalysisConfig E} {s s1 : State E} {d : RawDigit}
    (hp : ProcessChannel E cfg s d = some s1) :
    (cfg.n_channels ≤ d.Channel ∧ s1 = s) ∨
      (d.Channel < cfg.n_channels ∧ d.NADC < 2 ^ 32 ∧ s1 = processBody E cfg s d) := by
  unfold ProcessChannel at hp
  by_cases hc : d.Channel < cfg.n_channels
  · by_cases hn : d.NADC < 2 ^ 32
    · simp only [hc, hn, if_true, Option.some.injEq] at hp
      exact Or.inr ⟨hc, hn, hp.symm⟩
    · simp only [hc, hn, if_true, if_false] at hp
      exact absurd hp (by simp)
  · simp only [hc, if_false, Option.some.injEq] at hp
    exact Or.inl ⟨by omega, hp.symm⟩

theorem ProcessChannel_sized {E : Ext} {cfg : AnalysisConfig E} {s s1 : State E} {d : RawDigit}
    (hp : ProcessChannel E cfg s d = some s1) (hs : s.Sized cfg) : s1.Sized cfg := by
  rcases ProcessChannel_cases hp with ⟨_, e⟩ | ⟨_, _, e⟩
  · rw [e]; exact hs
  · rw [e]
    exact ⟨by simpa [processBody] using hs.1, by simpa [processBody] using hs.2⟩

theorem ProcessChannel_noise_size {E : Ext} {cfg : AnalysisConfig E} {s s1 : State E}
    {d : RawDigit} (hp : ProcessChannel E cfg s d = some s1) : s1.noise_size = s.noise_size := by
  rcases ProcessChannel_cases hp with ⟨_, e⟩ | ⟨_, _, e⟩ <;> rw [e]
  rfl

/-- A digit leaves the records of the other channels alone. -/
theorem ProcessChannel_other {E : Ext} {cfg : AnalysisConfig E} {s s1 : State E} {d : RawDigit}
    (hp : ProcessChannel E cfg s d = some s1) {c : Nat} (hc : d.Channel ≠ c) :
    s1.per_channel_data.getD c (ChannelData.zero E) =
      s.per_channel_data.getD c (ChannelData.zero E) := by
  rcases ProcessChannel_cases hp with ⟨_, e⟩ | ⟨_, _, e⟩
  · rw [e]
  · rw [e]
    exact getD_set_ne _ _ _ hc

/-- The record of a processed channel after the call. -/
theorem processBody_record (E : Ext) (cfg : AnalysisConfig E) (s : State E) (d : RawDigit)
    (hs : s.Sized cfg) (hc : d.Channel < cfg.n_channels) :
    ∃ r, (processBody E cfg s d).per_channel_data.getD d.Channel (ChannelData.zero E) = r ∧
      r.baseline = Mode d.ADCs ∧
      r.noise_ranges = (makeNoiseSample E cfg r.peaks r.baseline d.NADC).ranges := by
  have h1 : d.Channel < s.per_channel_data.length := by rw [hs.1]; exact hc
  have h2 : d.Channel < s.noise_store.length := by rw [hs.2]; exact hc
  refine ⟨_, rfl, ?_, ?_⟩
  · simp only [processBody, getD_set_self _ _ _ _ h1]
  · simp only [processBody, getD_set_self _ _ _ _ h1, getD_set_self _ _ _ _ h2]

theorem makeNoiseSample_fixed (E : Ext) (cfg : AnalysisConfig E) (peaks : List E.Peak)
    (baseline : Int) (nadc : Nat) (h : cfg.noise_range_sampling = 0) :
    (makeNoiseSample E cfg peaks baseline nadc).ranges = [(0, usub cfg.n_noise_samples 1)] := by
  simp [makeNoiseSample, h]

theorem makeNoiseSample_peaks (E : Ext) (cfg : AnalysisConfig E) (peaks : List E.Peak)
    (baseline : Int) (nadc : Nat) (h : cfg.noise_range_sampling ≠ 0) :
    makeNoiseSample E cfg peaks baseline nadc = E.NoiseSampleOfPeaks peaks baseline nadc := by
  simp [makeNoiseSample, h]

/-! ### All digits of an event -/

theorem processAll_sized {E : Ext} {cfg : AnalysisConfig E} (ds : List RawDigit) :
    ∀ {s s1 : State E}, processAll E cfg s ds = some s1 → s.Sized cfg → s1.Sized cfg := by
  induction ds with
  | nil =>
    intro s s1 hp hs
    simp only [processAll, Option.some.injEq] at hp
    rw [← hp]; exact hs
  | cons d ds ih =>
    intro s s1 hp hs
    simp only [processAll] at hp
    cases h1 : ProcessChannel E cfg s d with
    | none => rw [h1] at hp; exact absurd hp (by simp)
    | some s2 =>
      rw [h1] at hp
      exact ih hp (ProcessChannel_sized h1 hs)

theorem processAll_noise_size {E : Ext} {cfg : AnalysisConfig E} (ds : List RawDigit) :
    ∀ {s s1 : State E}, processAll E cfg s ds = some s1 → s1.noise_size = s.noise_size := by
  induction ds with
  | nil =>
    intro s s1 hp
    simp only [processAll, Option.some.injEq] at hp
    rw [← hp]
  | cons d ds ih =>
    intro s s1 hp
    simp only [processAll] at hp
    cases h1 : ProcessChannel E cfg s d with
    | none => rw [h1] at hp; exact absurd hp (by simp)
    | some s2 =>
      rw [h1] at hp
      rw [ih hp, ProcessChannel_noise_size h1]

/-- The record of a channel that has no digit in the event is not touched. -/
theorem processAll_other {E : Ext} {cfg : AnalysisConfig E} (ds : List RawDigit) {c : Nat}
    (hc : ∀ d ∈ ds, d.Channel ≠ c) :
    ∀ {s s1 : State E}, processAll E cfg s ds = some s1 →
      s1.per_channel_data.getD c (ChannelData.zero E) =
        s.per_channel_data.getD c (ChannelData.zero E) := by
  induction ds with
  | nil =>
    intro s s1 hp
    simp only [processAll, Option.some.injEq] at hp
    rw [← hp]
  | cons d ds ih =>
    intro s s1 hp
    simp only [processAll] at hp
    cases h1 : ProcessChannel E cfg s d with
    | none => rw [h1] at hp; exact absurd hp (by simp)
    | some s2 =>
      rw [h1] at hp
      rw [ih (fun d1 hd1 => hc d1 (List.mem_cons_of_mem _ hd1)) hp,
        ProcessChannel_other h1 (hc d (List.mem_cons_self _ _))]

/-- The loop over the digits returns when every waveform has fewer than `2 ^ 32` samples. -/
theorem processAll_isSome (E : Ext) (cfg : AnalysisConfig E) (ds : List RawDigit)
    (hn : ∀ d ∈ ds, d.NADC < 2 ^ 32) :
    ∀ s : State E, ∃ s1, processAll E cfg s ds = some s1 := by
  induction ds with
  | nil => intro s; exact ⟨s, rfl⟩
  | cons d ds ih =>
    intro s
    obtain ⟨s2, h2⟩ := Option.isSome_iff_exists.1
      (ProcessChannel_isSome E cfg s d (hn d (List.mem_cons_self _ _)))
    obtain ⟨s1, h1⟩ := ih (fun d1 hd1 => hn d1 (List.mem_cons_of_mem _ hd1)) s2
    exact ⟨s1, by simp only [processAll, h2, Option.some_bind, h1]⟩

/-! ### Clearing the containers -/

theorem clearLoop_length {E : Ext} (n : Nat) (l : List (ChannelData E)) :
    ((List.range n).foldl
      (fun l i => l.set i (clearRecord E (l.getD i (ChannelData.zero E)))) l).length =
      l.length := by
  induction n with
  | zero => rfl
  | succ n ih =>
    rw [List.range_succ, List.foldl_append, List.foldl_cons, List.foldl_nil, List.length_set]
    exact ih

theorem clearLoop_getD {E : Ext} (n : Nat) (l : List (ChannelData E)) (c : Nat)
    (hc : c < l.length) :
    ((List.range n).foldl
      (fun l i => l.set i (clearRecord E (l.getD i (ChannelData.zero E)))) l).getD c
        (ChannelData.zero E) =
      if c < n then clearRecord E (l.getD c (ChannelData.zero E))
      else l.getD c (ChannelData.zero E) := by
  induction n with
  | zero => simp
  | succ n ih =>
    rw [List.range_succ, List.foldl_append, List.foldl_cons, List.foldl_nil]
    by_cases hcn : c = n
    · subst hcn
      rw [getD_set_self _ _ _ _ (by rw [clearLoop_length]; exact hc), ih]
      simp
    · rw [getD_set_ne _ _ _ (Ne.symm hcn), ih]
      by_cases hlt : c < n
      · simp [hlt, Nat.lt_succ_of_lt hlt]
      · have : ¬ c < n + 1 := by omega
        simp [hlt, this]

theorem clearContainers_sized {E : Ext} {cfg : AnalysisConfig E} {s : State E}
    (hs : s.Sized cfg) : (clearContainers E cfg s).Sized cfg :=
  ⟨by simp only [clearContainers, clearLoop_length]; exact hs.1, hs.2⟩

theorem clearContainers_getD {E : Ext} {cfg : AnalysisConfig E} {s : State E}
    (hs : s.Sized cfg) {c : Nat} (hc : c < cfg.n_channels) :
    (clearContainers E cfg s).per_channel_data.getD c (ChannelData.zero E) =
      clearRecord E (s.per_channel_data.getD c (ChannelData.zero E)) := by
  simp only [clearContainers]
  rw [clearLoop_getD _ _ _ (by rw [hs.1]; exact hc), if_pos hc]

/-! ### The cross-channel pass -/

theorem SameChannelPart.refl {E : Ext} (r : ChannelData E) : SameChannelPart r r :=
  ⟨rfl, rfl, rfl, rfl, rfl, rfl, rfl, rfl, rfl, rfl⟩

theorem SameChannelPart.trans {E : Ext} {r r1 r2 : ChannelData E}
    (h1 : SameChannelPart r r1) (h2 : SameChannelPart r1 r2) : SameChannelPart r r2 := by
  obtain ⟨a1, a2, a3, a4, a5, a6, a7, a8, a9, a10⟩ := h1
  obtain ⟨b1, b2, b3, b4, b5, b6, b7, b8, b9, b10⟩ := h2
  exact ⟨b1.trans a1, b2.trans a2, b3.trans a3, b4.trans a4, b5.trans a5, b6.trans a6,
    b7.trans a7, b8.trans a8, b9.trans a9, b10.trans a10⟩

theorem crossStep_same {E : Ext} (cfg : AnalysisConfig E) (s : State E) (i c : Nat) :
    SameChannelPart (s.per_channel_data.getD c (ChannelData.zero E))
      ((crossStep E cfg s i).per_channel_data.getD c (ChannelData.zero E)) := by
  by_cases hic : i = c
  · subst hic
    by_cases hlen : i < s.per_channel_data.length
    · simp only [crossStep, getD_set_self _ _ _ _ hlen]
      exact ⟨rfl, rfl, rfl, rfl, rfl, rfl, rfl, rfl, rfl, rfl⟩
    · have hset : ∀ a, s.per_channel_data.set i a = s.per_channel_data := by
        intro a
        exact List.set_eq_of_length_le (by omega)
      simp only [crossStep, hset]
      exact SameChannelPart.refl _
  · simp only [crossStep, getD_set_ne _ _ _ hic]
    exact SameChannelPart.refl _

theorem crossLoop_same {E : Ext} (cfg : AnalysisConfig E) (l : List Nat) (c : Nat) :
    ∀ s : State E, SameChannelPart (s.per_channel_data.getD c (ChannelData.zero E))
      ((l.foldl (crossStep E cfg) s).per_channel_data.getD c (ChannelData.zero E)) := by
  induction l with
  | nil => intro s; exact SameChannelPart.refl _
  | cons i l ih =>
    intro s
    rw [List.foldl_cons]
    exact (crossStep_same cfg s i c).trans (ih _)

/-- The cross-channel pass only writes the four cross-channel statistics of a record. -/
theorem crossPass_same {E : Ext} (cfg : AnalysisConfig E) (s : State E) (c : Nat) :
    SameChannelPart (s.per_channel_data.getD c (ChannelData.zero E))
      ((crossPass E cfg s).per_channel_data.getD c (ChannelData.zero E)) :=
  crossLoop_same cfg _ c s

theorem crossLoop_oob {E : Ext} (cfg : AnalysisConfig E) (l : List Nat) :
    ∀ s : State E, s.noise_oob = true → (l.foldl (crossStep E cfg) s).noise_oob = true := by
  induction l with
  | nil => intro s h; exact h
  | cons i l ih =>
    intro s h
    rw [List.foldl_cons]
    apply ih
    simp [crossStep, h]

/-- With at least one channel and an empty `_noise_samples`, the cross-channel pass indexes
the vector beyond its size. -/
theorem crossPass_oob {E : Ext} (cfg : AnalysisConfig E) (s : State E)
    (hn : 1 ≤ cfg.n_channels) (hz : s.noise_size = 0) : (crossPass E cfg s).noise_oob = true := by
  unfold crossPass
  obtain ⟨m, hm⟩ : ∃ m, cfg.n_channels = m + 1 := ⟨cfg.n_channels - 1, by omega⟩
  rw [hm, List.range_succ_eq_map, List.foldl_cons]
  apply crossLoop_oob
  simp [crossStep, hz]

theorem crossLoop_sizes {E : Ext} (cfg : AnalysisConfig E) (l : List Nat) :
    ∀ s : State E,
      (l.foldl (crossStep E cfg) s).per_channel_data.length = s.per_channel_data.length ∧
      (l.foldl (crossStep E cfg) s).noise_store = s.noise_store ∧
      (l.foldl (crossStep E cfg) s).noise_size = s.noise_size := by
  induction l with
  | nil => intro s; exact ⟨rfl, rfl, rfl⟩
  | cons i l ih =>
    intro s
    rw [List.foldl_cons]
    obtain ⟨h1, h2, h3⟩ := ih (crossStep E cfg s i)
    exact ⟨by rw [h1]; simp [crossStep], by rw [h2]; rfl, by rw [h3]; rfl⟩

theorem crossPass_sized {E : Ext} (cfg : AnalysisConfig E) {s : State E} (hs : s.Sized cfg) :
    (crossPass E cfg s).Sized cfg := by
  obtain ⟨h1, h2, _⟩ := crossLoop_sizes cfg (List.range cfg.n_channels) s
  exact ⟨by rw [crossPass, h1]; exact hs.1, by rw [crossPass, h2]; exact hs.2⟩

theorem analyze_eq (E : Ext) (cfg : AnalysisConfig E) (s : State E) (event : List RawDigit) :
    analyze E cfg s event =
      (processAll E cfg (clearContainers E cfg { s with event_ind := uincr s.event_ind })
        event).map (crossPass E cfg) := rfl

theorem processAll_oob {E : Ext} {cfg : AnalysisConfig E} (ds : List RawDigit) :
    ∀ {s s1 : State E}, processAll E cfg s ds = some s1 → s.noise_size = 0 →
      (∃ d ∈ ds, d.Channel < cfg.n_channels) → s1.noise_oob = true := by
  induction ds with
  | nil =>
    intro s s1 _ _ hex
    obtain ⟨d, hd, _⟩ := hex
    exact absurd hd (List.not_mem_nil d)
  | cons d ds ih =>
    intro s s1 hp hz hex
    simp only [processAll] at hp
    cases h1 : ProcessChannel E cfg s d with
    | none => rw [h1] at hp; exact absurd hp (by simp)
    | some s2 =>
      rw [h1] at hp
      have hz2 : s2.noise_size = 0 := by rw [ProcessChannel_noise_size h1]; exact hz
      by_cases hc : d.Channel < cfg.n_channels
      · -- this digit writes `_noise_samples[channel]` into the empty vector
        have h2 : s2.noise_oob = true := by
          rcases ProcessChannel_cases h1 with ⟨h, _⟩ | ⟨_, _, e⟩
          · omega
          · rw [e]; simp [processBody, hz]
        have hmono : ∀ (l : List RawDigit) (a b : State E), processAll E cfg a l = some b →
            a.noise_oob = true → b.noise_oob = true := by
          intro l
          induction l with
          | nil =>
            intro a b hab ha
            simp only [processAll, Option.some.injEq] at hab
            rw [← hab]; exact ha
          | cons x l ihl =>
            intro a b hab ha
            simp only [processAll] at hab
            cases hx : ProcessChannel E cfg a x with
            | none => rw [hx] at hab; exact absurd hab (by simp)
            | some a2 =>
              rw [hx] at hab
              apply ihl a2 b hab
              rcases ProcessChannel_cases hx with ⟨_, e⟩ | ⟨_, _, e⟩
              · rw [e]; exact ha
              · rw [e]; simp [processBody, ha]
        exact hmono ds s2 s1 hp h2
      · apply ih hp hz2
        obtain ⟨d1, hd1, hc1⟩ := hex
        rcases List.mem_cons.1 hd1 with h | h
        · rw [h] at hc1; exact absurd hc1 hc
        · exact ⟨d1, h, hc1⟩

/-- Whenever `analyze` returns with at least one configured channel, it has indexed the
emptied `_noise_samples` beyond its size. -/
theorem analyze_oob {E : Ext} {cfg : AnalysisConfig E} {s s1 : State E} {event : List RawDigit}
    (hn : 1 ≤ cfg.n_channels) (ha : analyze E cfg s event = some s1) : s1.noise_oob = true := by
  rw [analyze_eq] at ha
  cases hp : processAll E cfg (clearContainers E cfg { s with event_ind := uincr s.event_ind })
      event with
  | none => rw [hp] at ha; exact absurd ha (by simp)
  | some p =>
    rw [hp] at ha
    simp only [Option.map_some', Option.some.injEq] at ha
    rw [← ha]
    apply crossPass_oob cfg p hn
    rw [processAll_noise_size event hp]
    rfl


/-! ### The extremes found by the sample loop -/

theorem sampleLoop_waveform (E : Ext) (xs : List Int) :
    ∀ (i : Nat) (acc : SampleAcc E), (sampleLoop E i xs acc).waveform = acc.waveform ++ xs := by
  induction xs with
  | nil => intro i acc; simp [sampleLoop]
  | cons x xs ih =>
    intro i acc
    rw [sampleLoop, ih]
    simp [sampleStep]

/-- The local `max` ends at least as high as its initial value and as every sample, and it is
its initial value or one of the samples. -/
theorem sampleLoop_max (E : Ext) (xs : List Int) :
    ∀ (i : Nat) (acc : SampleAcc E),
      acc.max ≤ (sampleLoop E i xs acc).max ∧
      (∀ x ∈ xs, x ≤ (sampleLoop E i xs acc).max) ∧
      ((sampleLoop E i xs acc).max = acc.max ∨ (sampleLoop E i xs acc).max ∈ xs) := by
  induction xs with
  | nil =>
    intro i acc
    exact ⟨le_refl _, fun x hx => absurd hx (List.not_mem_nil x), Or.inl rfl⟩
  | cons a xs ih =>
    intro i acc
    rw [sampleLoop]
    obtain ⟨h1, h2, h3⟩ := ih (i + 1) (sampleStep E acc i a)
    have hstep : acc.max ≤ (sampleStep E acc i a).max ∧ a ≤ (sampleStep E acc i a).max ∧
        ((sampleStep E acc i a).max = acc.max ∨ (sampleStep E acc i a).max = a) := by
      simp only [sampleStep]
      split_ifs with h
      · exact ⟨le_of_lt h, le_refl _, Or.inr rfl⟩
      · exact ⟨le_refl _, by omega, Or.inl rfl⟩
    refine ⟨le_trans hstep.1 h1, ?_, ?_⟩
    · intro x hx
      rcases List.mem_cons.1 hx with h | h
      · rw [h]; exact le_trans hstep.2.1 h1
      · exact h2 x h
    · rcases h3 with h | h
      · rcases hstep.2.2 with h' | h'
        · left; rw [h, h']
        · right; rw [h, h']; exact List.mem_cons_self _ _
      · right; exact List.mem_cons_of_mem _ h

/-- The local `min` ends at most as high as its initial value and as every sample, and it is
its initial value or one of the samples. -/
theorem sampleLoop_min (E : Ext) (xs : List Int) :
    ∀ (i : Nat) (acc : SampleAcc E),
      (sampleLoop E i xs acc).min ≤ acc.min ∧
      (∀ x ∈ xs, (sampleLoop E i xs acc).min ≤ x) ∧
      ((sampleLoop E i xs acc).min = acc.min ∨ (sampleLoop E i xs acc).min ∈ xs) := by
  induction xs with
  | nil =>
    intro i acc
    exact ⟨le_refl _, fun x hx => absurd hx (List.not_mem_nil x), Or.inl rfl⟩
  | cons a xs ih =>
    intro i acc
    rw [sampleLoop]
    obtain ⟨h1, h2, h3⟩ := ih (i + 1) (sampleStep E acc i a)
    have hstep : (sampleStep E acc i a).min ≤ acc.min ∧ (sampleStep E acc i a).min ≤ a ∧
        ((sampleStep E acc i a).min = acc.min ∨ (sampleStep E acc i a).min = a) := by
      simp only [sampleStep]
      split_ifs with h
      · exact ⟨le_of_lt h, le_refl _, Or.inr rfl⟩
      · exact ⟨le_refl _, by omega, Or.inl rfl⟩
    refine ⟨le_trans h1 hstep.1, ?_, ?_⟩
    · intro x hx
      rcases List.mem_cons.1 hx with h | h
      · rw [h]; exact le_trans h1 hstep.2.1
      · exact h2 x h
    · rcases h3 with h | h
      · rcases hstep.2.2 with h' | h'
        · left; rw [h, h']
        · right; rw [h, h']; exact List.mem_cons_self _ _
      · right; exact List.mem_cons_of_mem _ h

theorem DBL_MAX_gt_short : (32767 : Int) < DBL_MAX := by
  unfold DBL_MAX
  norm_num

/-- The fields `max`, `min` and `waveform` of the record of a processed channel are the
locals of the sample loop started at `max = 0`, `min = DBL_MAX` on the record's waveform. -/
theorem processBody_extremes (E : Ext) (cfg : AnalysisConfig E) (s : State E) (d : RawDigit)
    (hs : s.Sized cfg) (hc : d.Channel < cfg.n_channels) :
    ∃ acc : SampleAcc E, acc.max = 0 ∧ acc.min = DBL_MAX ∧
      acc.waveform = (s.record d.Channel).waveform ∧
      ((processBody E cfg s d).record d.Channel).max = (sampleLoop E 0 d.ADCs acc).max ∧
      ((processBody E cfg s d).record d.Channel).min = (sampleLoop E 0 d.ADCs acc).min ∧
      ((processBody E cfg s d).record d.Channel).waveform =
        (sampleLoop E 0 d.ADCs acc).waveform := by
  have h1 : d.Channel < s.per_channel_data.length := by rw [hs.1]; exact hc
  refine ⟨SampleAcc.mk 0 DBL_MAX (s.record d.Channel).waveform
    (if E.InputSize s.fft_manager ≠ d.NADC then E.Set s.fft_manager d.NADC
      else s.fft_manager), rfl, rfl, rfl, ?_, ?_, ?_⟩
  all_goals simp only [State.record, processBody, getD_set_self _ _ _ _ h1]

/-- On a processed channel with a non-empty waveform of 16-bit samples, the record's `min`
is the smallest sample, and the record's `max` is the largest sample when some sample is not
negative and 0, the initial value of the local `max`, when all samples are negative. -/
theorem ProcessChannel_extremes (E : Ext) (cfg : AnalysisConfig E) (s : State E) (d : RawDigit)
    (hs : s.Sized cfg) (hc : d.Channel < cfg.n_channels) (hn : d.NADC < 2 ^ 32)
    (hne : d.ADCs ≠ []) (h16 : ∀ x ∈ d.ADCs, -32768 ≤ x ∧ x ≤ 32767) :
    ∃ s1, ProcessChannel E cfg s d = some s1 ∧
      ((s1.record d.Channel).min ∈ d.ADCs ∧ ∀ x ∈ d.ADCs, (s1.record d.Channel).min ≤ x) ∧
      (∀ x ∈ d.ADCs, x ≤ (s1.record d.Channel).max) ∧
      ((∃ x ∈ d.ADCs, 0 ≤ x) → (s1.record d.Channel).max ∈ d.ADCs) ∧
      ((∀ x ∈ d.ADCs, x < 0) → (s1.record d.Channel).max = 0) := by
  obtain ⟨s1, hp⟩ := Option.isSome_iff_exists.1 (ProcessChannel_isSome E cfg s d hn)
  refine ⟨s1, hp, ?_⟩
  rcases ProcessChannel_cases hp with ⟨h, _⟩ | ⟨_, _, e⟩
  · omega
  · obtain ⟨acc, hmax0, hmin0, _, hmax, hmin, _⟩ := processBody_extremes E cfg s d hs hc
    obtain ⟨a1, a2, a3⟩ := sampleLoop_max E d.ADCs 0 acc
    obtain ⟨b1, b2, b3⟩ := sampleLoop_min E d.ADCs 0 acc
    rw [e, hmax, hmin]
    rw [hmax0] at a1 a3
    rw [hmin0] at b3
    refine ⟨⟨?_, b2⟩, a2, ?_, ?_⟩
    · rcases b3 with h | h
      · -- the local `min` cannot still be `DBL_MAX`: some sample lies below it
        obtain ⟨x, hx⟩ := List.exists_mem_of_ne_nil d.ADCs hne
        have h1 := b2 x hx
        have h2 := (h16 x hx).2
        have h3 := DBL_MAX_gt_short
        omega
      · exact h
    · rintro ⟨x, hx, hx0⟩
      rcases a3 with h | h
      · have h1 := a2 x hx
        have hx' : x = 0 := by omega
        rw [h, ← hx']
        exact hx
      · exact h
    · intro hneg
      rcases a3 with h | h
      · exact h
      · have := hneg _ h
        omega

/-! ### The noise ranges built from peaks -/

/-- Each run starts and ends at a tick of the list, the start not after the end. -/
theorem tickRuns_mem (l : List Nat) : ∀ r ∈ tickRuns l, r.1 ∈ l ∧ r.2 ∈ l ∧ r.1 ≤ r.2 := by
  induction l with
  | nil => intro r hr; exact absurd hr (List.not_mem_nil r)
  | cons t ts ih =>
    intro r hr
    rw [tickRuns] at hr
    cases hts : tickRuns ts with
    | nil =>
      rw [hts] at hr
      simp only [List.mem_singleton] at hr
      rw [hr]
      exact ⟨List.mem_cons_self _ _, List.mem_cons_self _ _, le_refl _⟩
    | cons ab rest =>
      obtain ⟨a, b⟩ := ab
      rw [hts] at hr ih
      have hab := ih (a, b) (List.mem_cons_self _ _)
      have hrest : ∀ q ∈ rest, q.1 ∈ t :: ts ∧ q.2 ∈ t :: ts ∧ q.1 ≤ q.2 := by
        intro q hq
        obtain ⟨h1, h2, h3⟩ := ih q (List.mem_cons_of_mem _ hq)
        exact ⟨List.mem_cons_of_mem _ h1, List.mem_cons_of_mem _ h2, h3⟩
      simp only at hr
      split_ifs at hr with hta
      · rcases List.mem_cons.1 hr with h | h
        · rw [h]
          refine ⟨List.mem_cons_self _ _, List.mem_cons_of_mem _ hab.2.1, ?_⟩
          have := hab.2.2
          simp only at this ⊢
          omega
        · exact hrest r h
      · rcases List.mem_cons.1 hr with h | h
        · rw [h]
          exact ⟨List.mem_cons_self _ _, List.mem_cons_self _ _, le_refl _⟩
        · rcases List.mem_cons.1 h with h' | h'
          · rw [h']
            exact ⟨List.mem_cons_of_mem _ hab.1, List.mem_cons_of_mem _ hab.2.1, hab.2.2⟩
          · exact hrest r h'

theorem tickRuns_range' (n : Nat) : ∀ s, tickRuns (List.range' s (n + 1)) = [(s, s + n)] := by
  induction n with
  | zero => intro s; rfl
  | succ n ih =>
    intro s
    rw [List.range'_succ, tickRuns, ih (s + 1)]
    simp only [if_true]
    congr 2
    omega

/-- The fallback of the modelled constructor is the full waveform, one range over all
ticks. -/
theorem tickRuns_range (n : Nat) (hn : 0 < n) : tickRuns (List.range n) = [(0, n - 1)] := by
  obtain ⟨m, rfl⟩ : ∃ m, n = m + 1 := ⟨n - 1, by omega⟩
  rw [List.range_eq_range', tickRuns_range' m 0]
  simp

/-- The ranges of the modelled constructor lie within the ticks of the waveform, whatever
the peaks are. -/
theorem noiseRangesOfPeaks_in_bounds (spans : List (Nat × Nat)) (wvfm_size : Nat) :
    ∀ r ∈ noiseRangesOfPeaks spans wvfm_size, InTickBounds wvfm_size r := by
  intro r hr
  have hsub : ∀ l : List Nat, (∀ t ∈ l, t < wvfm_size) → r ∈ tickRuns l →
      InTickBounds wvfm_size r := by
    intro l hl hrl
    obtain ⟨_, h2, h3⟩ := tickRuns_mem l r hrl
    exact ⟨h3, hl _ h2⟩
  unfold noiseRangesOfPeaks at hr
  simp only at hr
  split_ifs at hr
  · exact hsub _ (fun t ht => List.mem_range.1 ht) hr
  · exact hsub _ (fun t ht => List.mem_range.1 (List.mem_filter.1 ht).1) hr

/-- The fixed window `[0, n_noise_samples - 1]` lies within the ticks of a waveform exactly
when it is not empty and not longer than the waveform. -/
theorem fixed_window_in_bounds (n nadc : Nat) (hn : n < 2 ^ 32) (hnadc : nadc < 2 ^ 32) :
    InTickBounds nadc (0, usub n 1) ↔ 1 ≤ n ∧ n ≤ nadc := by
  unfold InTickBounds
  constructor
  · rintro ⟨_, h⟩
    by_cases h0 : n = 0
    · subst h0
      have : usub 0 1 = 4294967295 := by decide
      rw [this] at h
      simp only at h
      omega
    · have h1 : 1 ≤ n := by omega
      rw [usub_one h1 hn] at h
      simp only at h
      omega
  · rintro ⟨h1, h2⟩
    rw [usub_one h1 hn]
    exact ⟨Nat.zero_le _, by simp only; omega⟩

/-! ## The claims -/

set_option maxRecDepth 100000

/-! ### C1 -/

/-- C1, as stated, fails: on `2 ^ 32` samples all equal to 1 the `unsigned` counter of the
slot holding 1 has wrapped to zero and `Mode` returns its initial `ret = 0`. -/
theorem Mode_constant_wraps :
    List.replicate 4294967296 (1 : Int) ≠ [] ∧
      (∀ x ∈ List.replicate 4294967296 (1 : Int), x = 1) ∧
      Mode (List.replicate 4294967296 1) = 0 ∧
      Mode (List.replicate 4294967296 1) ≠ 1 := by
  refine ⟨?_, ?_, ?_, ?_⟩
  · intro h
    have := congrArg List.length h
    rw [List.length_replicate] at this
    exact absurd this (by decide)
  · intro x hx
    exact List.eq_of_mem_replicate hx
  · rw [Mode_replicate]
    rfl
  · rw [Mode_replicate]
    decide

/-- C1 (amended): for every sample sequence whose samples all equal `c`, `Mode` returns
exactly `c` when `c = 0` or when the length is not a multiple of `2 ^ 32` (in particular for
every non-empty sequence of at most `2 ^ 32 - 1` samples). -/
theorem Mode_constant (c : Int) (xs : List Int) (hall : ∀ x ∈ xs, x = c)
    (hlen : c = 0 ∨ xs.length % 2 ^ 32 ≠ 0) : Mode xs = c := by
  have hxs : xs = List.replicate xs.length c := List.eq_replicate_iff.2 ⟨rfl, hall⟩
  rw [hxs, Mode_replicate]
  rcases hlen with h | h
  · split_ifs
    · exact h.symm
    · rfl
  · rw [if_neg h]

/-- Witness of C1 (amended) on three samples equal to -3. -/
theorem Mode_constant_witness :
    (∀ x ∈ ([-3, -3, -3] : List Int), x = -3) ∧
      ((-3 : Int) = 0 ∨ ([-3, -3, -3] : List Int).length % 2 ^ 32 ≠ 0) ∧
      Mode [-3, -3, -3] = -3 :=
  ⟨by decide, Or.inr (by decide),
    Mode_constant (-3) [-3, -3, -3] (by decide) (Or.inr (by decide))⟩

/-! ### C2 -/

/-- C2, as stated, fails: on eleven different non-zero samples the eleventh lowers all ten
counters to zero and `Mode` returns its initial `ret = 0`, which is not a sample. -/
theorem Mode_not_in_input :
    ([1, 2, 3, 4, 5, 6, 7, 8, 9, 10, 11] : List Int) ≠ [] ∧
      Mode [1, 2, 3, 4, 5, 6, 7, 8, 9, 10, 11] = 0 ∧
      Mode [1, 2, 3, 4, 5, 6, 7, 8, 9, 10, 11] ∉ ([1, 2, 3, 4, 5, 6, 7, 8, 9, 10, 11] : List Int) := by
  decide

/-- C2 (amended): for every sequence of samples `Mode` returns a value (it is a total
function), and that value is an element of the input sequence or it is the initial
`ret = 0`, returned when no slot is left with a positive counter after the pass. -/
theorem Mode_mem_or_zero (xs : List Int) :
    Mode xs ∈ xs ∨ (Mode xs = 0 ∧ ∀ i, (modePass xs).counters i = 0) := by
  rcases modeResult_zero_or_slot (modePass xs) with h | ⟨i, hi, hr⟩
  · exact Or.inr h
  · left
    unfold Mode
    rw [hr]
    exact modePass_counter_mem xs i hi

/-! ### C3 -/

/-- C3: in the cross-channel pass, for every channel count `n ≥ 1` (an `unsigned`) and every
`i < n`, `last_channel_ind` is `(i + n - 1) mod n`, `next_channel_ind` is `(i + 1) mod n`,
both are smaller than `n`, and for `n = 1` both are 0. -/
theorem channel_neighbours (n i : Nat) (hn : 1 ≤ n) (hn32 : n < 2 ^ 32) (hi : i < n) :
    last_channel_ind n i = (i + n - 1) % n ∧ next_channel_ind n i = (i + 1) % n ∧
      last_channel_ind n i < n ∧ next_channel_ind n i < n ∧
      (n = 1 → last_channel_ind n i = 0 ∧ next_channel_ind n i = 0) := by
  have hu : usub n 1 = n - 1 := usub_one hn hn32
  have hlast : last_channel_ind n i = (i + n - 1) % n := by
    unfold last_channel_ind
    split_ifs with h0
    · rw [hu, h0, Nat.zero_add, Nat.mod_eq_of_lt (by omega)]
    · have : i + n - 1 = (i - 1) + n := by omega
      rw [this, Nat.add_mod_right, Nat.mod_eq_of_lt (by omega)]
  have hnext : next_channel_ind n i = (i + 1) % n := by
    unfold next_channel_ind
    rw [hu]
    split_ifs with h0
    · have : i + 1 = n := by omega
      rw [this, Nat.mod_self]
    · rw [Nat.mod_eq_of_lt (by omega), Nat.mod_eq_of_lt (by omega)]
  have hpos : 0 < n := by omega
  refine ⟨hlast, hnext, ?_, ?_, ?_⟩
  · rw [hlast]; exact Nat.mod_lt _ hpos
  · rw [hnext]; exact Nat.mod_lt _ hpos
  · intro h1
    subst h1
    rw [hlast, hnext]
    constructor <;> omega

/-- Witness of C3 for 16 channels at channel 0: the neighbours are 15 and 1. -/
theorem channel_neighbours_witness :
    last_channel_ind 16 0 = (0 + 16 - 1) % 16 ∧ next_channel_ind 16 0 = (0 + 1) % 16 ∧
      last_channel_ind 16 0 < 16 ∧ next_channel_ind 16 0 < 16 ∧
      ((16 : Nat) = 1 → last_channel_ind 16 0 = 0 ∧ next_channel_ind 16 0 = 0) :=
  channel_neighbours 16 0 (by decide) (by decide) (by decide)

/-! ### C4 -/

/-- C4: a digit whose channel identifier is at least `n_channels` leaves the whole analysis
state unchanged: `ProcessChannel` returns, and the records, the noise samples, the
transform buffer (and every other data member) are the same as before. -/
theorem ProcessChannel_out_of_scope (E : Ext) (cfg : AnalysisConfig E) (s : State E)
    (digits : RawDigit) (h : cfg.n_channels ≤ digits.Channel) :
    ProcessChannel E cfg s digits = some s := by
  have hlt : ¬ digits.Channel < cfg.n_channels := by omega
  simp only [ProcessChannel, hlt, if_false]

/-- Witness of C4: channel 16 with the default 16 channels. -/
theorem ProcessChannel_out_of_scope_witness :
    (plainConfig 16).n_channels ≤ (RawDigit.mk 16 [3, 4, 5]).Channel ∧
      ProcessChannel plainExt (plainConfig 16) (SimpleDaqAnalysis plainExt (plainConfig 16))
        (RawDigit.mk 16 [3, 4, 5]) = some (SimpleDaqAnalysis plainExt (plainConfig 16)) :=
  ⟨by decide, ProcessChannel_out_of_scope plainExt (plainConfig 16) _ _ (by decide)⟩

/-! ### C5 -/

/-- C5, as stated, fails: with one channel, after an event holding the waveform `5, 5, 5`
for channel 0 and then an event without any waveform, the record of channel 0 still has
baseline, max and min equal to 5, not 0. -/
theorem analyze_keeps_scalars :
    ((analyze plainExt (plainConfig 1) (SimpleDaqAnalysis plainExt (plainConfig 1))
        [RawDigit.mk 0 [5, 5, 5]]).bind
      (fun s1 => analyze plainExt (plainConfig 1) s1 [])).map
      (fun s2 => ((s2.record 0).baseline, (s2.record 0).max, (s2.record 0).min,
        (s2.record 0).waveform)) = some (5, 5, 5, []) := by
  decide

/-- C5 (amended): for two events whose waveforms have fewer than `2 ^ 32` samples, `analyze`
returns on both, and a channel `c < n_channels` without a waveform in the second event has,
after the second event, an empty waveform, empty peaks and empty spectral sequences, while
its baseline, rms, min and max are not reset: they are the values the record had after the
first event. -/
theorem analyze_second_event (E : Ext) (cfg : AnalysisConfig E) (s0 : State E)
    (e1 e2 : List RawDigit) (c : Nat) (hs : s0.Sized cfg) (hc : c < cfg.n_channels)
    (hn1 : ∀ d ∈ e1, d.NADC < 2 ^ 32) (hn2 : ∀ d ∈ e2, d.NADC < 2 ^ 32)
    (h2 : ∀ d ∈ e2, d.Channel ≠ c) :
    ∃ s1 s2, analyze E cfg s0 e1 = some s1 ∧ analyze E cfg s1 e2 = some s2 ∧
      (s2.record c).waveform = [] ∧ (s2.record c).peaks = [] ∧
      (s2.record c).fft_real = [] ∧ (s2.record c).fft_imag = [] ∧
      (s2.record c).baseline = (s1.record c).baseline ∧ (s2.record c).rms = (s1.record c).rms ∧
      (s2.record c).min = (s1.record c).min ∧ (s2.record c).max = (s1.record c).max := by
  -- the first event
  have hs0 : (clearContainers E cfg { s0 with event_ind := uincr s0.event_ind }).Sized cfg :=
    clearContainers_sized (s := { s0 with event_ind := uincr s0.event_ind }) hs
  obtain ⟨p1, hp1⟩ := processAll_isSome E cfg e1 hn1
    (clearContainers E cfg { s0 with event_ind := uincr s0.event_ind })
  have hsp1 : p1.Sized cfg := processAll_sized e1 hp1 hs0
  have hs1 : (crossPass E cfg p1).Sized cfg := crossPass_sized cfg hsp1
  -- the second event
  have hs1c : State.Sized cfg { crossPass E cfg p1 with
      event_ind := uincr (crossPass E cfg p1).event_ind } := hs1
  obtain ⟨p2, hp2⟩ := processAll_isSome E cfg e2 hn2
    (clearContainers E cfg { crossPass E cfg p1 with
      event_ind := uincr (crossPass E cfg p1).event_ind })
  refine ⟨crossPass E cfg p1, crossPass E cfg p2, ?_, ?_, ?_⟩
  · rw [analyze_eq, hp1]; rfl
  · rw [analyze_eq, hp2]; rfl
  · have hclr := clearContainers_getD hs1c hc
    have hoth := processAll_other e2 h2 hp2
    obtain ⟨_, a2, a3, a4, a5, a6, a7, a8, a9, _⟩ := crossPass_same cfg p2 c
    simp only [State.record]
    rw [a2, a3, a4, a5, a6, a7, a8, a9, hoth, hclr]
    exact ⟨rfl, rfl, rfl, rfl, rfl, rfl, rfl, rfl⟩

/-- Witness of C5 (amended): one channel, a waveform in the first event, none in the
second. -/
theorem analyze_second_event_witness :
    ∃ s1 s2,
      analyze plainExt (plainConfig 1) (SimpleDaqAnalysis plainExt (plainConfig 1))
        [RawDigit.mk 0 [5, 5, 5]] = some s1 ∧
      analyze plainExt (plainConfig 1) s1 [] = some s2 ∧
      (s2.record 0).waveform = [] ∧ (s2.record 0).peaks = [] ∧
      (s2.record 0).fft_real = [] ∧ (s2.record 0).fft_imag = [] ∧
      (s2.record 0).baseline = (s1.record 0).baseline ∧ (s2.record 0).rms = (s1.record 0).rms ∧
      (s2.record 0).min = (s1.record 0).min ∧ (s2.record 0).max = (s1.record 0).max :=
  analyze_second_event plainExt (plainConfig 1) (SimpleDaqAnalysis plainExt (plainConfig 1))
    [RawDigit.mk 0 [5, 5, 5]] [] 0 ⟨rfl, rfl⟩ (by decide) (by decide) (by decide) (by decide)

/-! ### C6 -/

/-- C6: when `noise_range_sampling = 0`, for every processed channel (`channel <
n_channels`) and every waveform, whenever `ProcessChannel` returns, the noise ranges on the
channel's record are exactly the single range with start 0 and end `n_noise_samples - 1`
(an `unsigned` subtraction); and it returns for every waveform of fewer than `2 ^ 32`
samples. -/
theorem ProcessChannel_fixed_window (E : Ext) (cfg : AnalysisConfig E) (s : State E)
    (digits : RawDigit) (hs : s.Sized cfg) (hmode : cfg.noise_range_sampling = 0)
    (hc : digits.Channel < cfg.n_channels) :
    (∀ s1, ProcessChannel E cfg s digits = some s1 →
      (s1.record digits.Channel).noise_ranges = [(0, usub cfg.n_noise_samples 1)]) ∧
    (digits.NADC < 2 ^ 32 → ∃ s1, ProcessChannel E cfg s digits = some s1) := by
  constructor
  · intro s1 hp
    rcases ProcessChannel_cases hp with ⟨h, _⟩ | ⟨_, _, e⟩
    · omega
    · obtain ⟨r, hr, _, hranges⟩ := processBody_record E cfg s digits hs hc
      rw [State.record, e, hr, hranges, makeNoiseSample_fixed E cfg _ _ _ hmode]
  · intro hn
    exact Option.isSome_iff_exists.1 (ProcessChannel_isSome E cfg s digits hn)

/-- Witness of C6: four channels, `n_noise_samples = 20`; the ranges of channel 2 are
`[[0, 19]]` on a waveform of three samples. -/
theorem ProcessChannel_fixed_window_witness :
    (plainConfig 4).noise_range_sampling = 0 ∧
      (RawDigit.mk 2 [7, -1, 7]).Channel < (plainConfig 4).n_channels ∧
      (∀ s1, ProcessChannel plainExt (plainConfig 4) (SimpleDaqAnalysis plainExt (plainConfig 4))
          (RawDigit.mk 2 [7, -1, 7]) = some s1 →
        (s1.record 2).noise_ranges = [(0, 19)]) ∧
      ((RawDigit.mk 2 [7, -1, 7]).NADC < 2 ^ 32 →
        ∃ s1, ProcessChannel plainExt (plainConfig 4)
          (SimpleDaqAnalysis plainExt (plainConfig 4)) (RawDigit.mk 2 [7, -1, 7]) = some s1) :=
  ⟨rfl, by decide,
    ProcessChannel_fixed_window plainExt (plainConfig 4)
      (SimpleDaqAnalysis plainExt (plainConfig 4)) (RawDigit.mk 2 [7, -1, 7]) ⟨rfl, rfl⟩ rfl
      (by decide)⟩

/-! ### C7 -/

/-- C7, as stated, fails: with the default `n_noise_samples = 20` in fixed-window mode, a
processed waveform of three samples gets the stored range `[0, 19]`, whose end is not
smaller than `NADC = 3`. -/
theorem noise_range_beyond_waveform :
    (RawDigit.mk 0 [7, -1, 7]).NADC = 3 ∧
      (ProcessChannel plainExt (plainConfig 1) (SimpleDaqAnalysis plainExt (plainConfig 1))
        (RawDigit.mk 0 [7, -1, 7])).map (fun s1 => (s1.record 0).noise_ranges)
        = some [(0, 19)] ∧
      ¬ InTickBounds 3 (0, 19) := by
  decide

/-- C7 (amended): for every processed channel whose waveform has fewer than `2 ^ 32`
samples, `ProcessChannel` returns, and each noise range stored on the channel's record lies
within the tick bounds of the waveform (`start ≤ end < NADC`) in peak mode, where the ranges
are those of the noise model's constructor as the specification describes it (the runs of
ticks of the waveform that no peak covers, and the full waveform when peaks cover it all);
in fixed-window mode the stored range `[0, n_noise_samples - 1]` lies within the tick bounds
exactly when `1 ≤ n_noise_samples ≤ NADC`. -/
theorem noise_ranges_in_bounds (E : Ext) (span : E.Peak → Nat × Nat)
    (cfg : AnalysisConfig (withSpecNoise E span)) (s : State (withSpecNoise E span))
    (digits : RawDigit) (hs : s.Sized cfg) (hc : digits.Channel < cfg.n_channels)
    (hn : digits.NADC < 2 ^ 32) (h32 : cfg.n_noise_samples < 2 ^ 32) :
    ∃ s1, ProcessChannel (withSpecNoise E span) cfg s digits = some s1 ∧
      (cfg.noise_range_sampling ≠ 0 →
        ∀ r ∈ (s1.record digits.Channel).noise_ranges, InTickBounds digits.NADC r) ∧
      (cfg.noise_range_sampling = 0 →
        ((∀ r ∈ (s1.record digits.Channel).noise_ranges, InTickBounds digits.NADC r) ↔
          1 ≤ cfg.n_noise_samples ∧ cfg.n_noise_samples ≤ digits.NADC)) := by
  obtain ⟨s1, hp⟩ := Option.isSome_iff_exists.1
    (ProcessChannel_isSome (withSpecNoise E span) cfg s digits hn)
  refine ⟨s1, hp, ?_, ?_⟩
  · -- peak mode: the ranges of the modelled constructor, whatever peaks were found
    intro hmode
    rcases ProcessChannel_cases hp with ⟨h, _⟩ | ⟨_, _, e⟩
    · omega
    · obtain ⟨r, hr, _, hranges⟩ := processBody_record (withSpecNoise E span) cfg s digits hs hc
      rw [State.record, e, hr, hranges, makeNoiseSample_peaks _ cfg _ _ _ hmode]
      exact noiseRangesOfPeaks_in_bounds _ _
  · -- fixed-window mode: the range built from `n_noise_samples` alone
    intro hmode
    rcases ProcessChannel_cases hp with ⟨h, _⟩ | ⟨_, _, e⟩
    · omega
    · obtain ⟨r, hr, _, hranges⟩ := processBody_record (withSpecNoise E span) cfg s digits hs hc
      rw [State.record, e, hr, hranges, makeNoiseSample_fixed _ cfg _ _ _ hmode]
      rw [← fixed_window_in_bounds cfg.n_noise_samples digits.NADC h32 hn]
      constructor
      · intro h
        exact h _ (List.mem_singleton.2 rfl)
      · intro h q hq
        rw [List.mem_singleton.1 hq]
        exact h

/-- Witness of C7 (amended), in peak mode: on a waveform of seven samples with one peak over
the ticks 2 and 3 the stored ranges are `[0, 1]` and `[4, 6]`. -/
theorem noise_ranges_in_bounds_witness :
    (ProcessChannel (withSpecNoise peakExt id) (peakConfig 1)
        (SimpleDaqAnalysis (withSpecNoise peakExt id) (peakConfig 1))
        (RawDigit.mk 0 [100, 100, 700, 700, 100, 100, 100])).map
        (fun s1 => (s1.record 0).noise_ranges) = some [(0, 1), (4, 6)] ∧
      ∃ s1, ProcessChannel (withSpecNoise peakExt id) (peakConfig 1)
          (SimpleDaqAnalysis (withSpecNoise peakExt id) (peakConfig 1))
          (RawDigit.mk 0 [100, 100, 700, 700, 100, 100, 100]) = some s1 ∧
        ((peakConfig 1).noise_range_sampling ≠ 0 →
          ∀ r ∈ (s1.record 0).noise_ranges, InTickBounds 7 r) ∧
        ((peakConfig 1).noise_range_sampling = 0 →
          ((∀ r ∈ (s1.record 0).noise_ranges, InTickBounds 7 r) ↔
            1 ≤ (peakConfig 1).n_noise_samples ∧ (peakConfig 1).n_noise_samples ≤ 7)) :=
  ⟨by decide,
    noise_ranges_in_bounds peakExt id (peakConfig 1)
      (SimpleDaqAnalysis (withSpecNoise peakExt id) (peakConfig 1))
      (RawDigit.mk 0 [100, 100, 700, 700, 100, 100, 100]) ⟨rfl, rfl⟩ (by decide) (by decide)
      (by decide)⟩

/-! ### C8 -/

/-- C8, as stated, fails: after `2 ^ 32` samples all equal to 1 the `unsigned` counter of
`Mode` has wrapped, so no slot of `Mode` has a positive count, while the reference algorithm
holds the pair `(1, 2 ^ 32)`. -/
theorem slots_differ_after_wrap :
    occupied (modePass (List.replicate 4294967296 1)) = 0 ∧
      occupied (refPass (List.replicate 4294967296 1)) = {(1, 4294967296)} := by
  rw [modePass_replicate 1 4294967296 (by decide), refPass_replicate 1 4294967296 (by decide)]
  constructor
  · decide
  · decide

/-- C8 (amended): for every sample sequence of fewer than `2 ^ 32` samples, the slot state
that `Mode` reaches after its pass and the slot state of the reference algorithm hold the
same multiset of (value, count) pairs over the slots with a positive count, although `Mode`
looks a sample up by value in every slot, also in slots whose count is zero. -/
theorem occupied_modePass_eq (xs : List Int) (hlen : xs.length < 2 ^ 32) :
    occupied (modePass xs) = occupied (refPass xs) := by
  obtain ⟨hsr, hrs, hdr⟩ := modePass_sim xs hlen
  exact occupied_eq_of_sub (modePass_firstHome xs).distinct hdr hsr hrs

/-- Witness of C8 (amended): after eleven different samples all counts are zero; the sample
5 is then found by value in its old slot by `Mode` and put into the first empty slot by the
reference algorithm, and both hold the pair `(5, 1)` only. -/
theorem occupied_modePass_eq_witness :
    ([1, 2, 3, 4, 5, 6, 7, 8, 9, 10, 11, 5] : List Int).length < 2 ^ 32 ∧
      occupied (modePass [1, 2, 3, 4, 5, 6, 7, 8, 9, 10, 11, 5]) =
        occupied (refPass [1, 2, 3, 4, 5, 6, 7, 8, 9, 10, 11, 5]) :=
  ⟨by decide, occupied_modePass_eq _ (by decide)⟩

/-! ### C9 -/

/-- C9 fails on the code: `analyze` empties `_noise_samples` with `clear()`, so its size is
0 when `ProcessChannel` and the cross-channel pass index it. With one channel and one
waveform for channel 0: the size is 1 after the constructor and 0 after the clearing step,
the write `_noise_samples[0]` of `ProcessChannel` is already beyond the size, and so are the
reads of the cross-channel pass of an event without any waveform. -/
theorem analyze_indexes_cleared_vector :
    (SimpleDaqAnalysis plainExt (plainConfig 1)).noise_size = 1 ∧
      (clearContainers plainExt (plainConfig 1)
        (SimpleDaqAnalysis plainExt (plainConfig 1))).noise_size = 0 ∧
      (processAll plainExt (plainConfig 1)
        (clearContainers plainExt (plainConfig 1) (SimpleDaqAnalysis plainExt (plainConfig 1)))
        [RawDigit.mk 0 [5, 5, 5]]).map (fun s1 => s1.noise_oob) = some true ∧
      (analyze plainExt (plainConfig 1) (SimpleDaqAnalysis plainExt (plainConfig 1))
        [RawDigit.mk 0 [5, 5, 5]]).map (fun s1 => s1.noise_oob) = some true ∧
      (analyze plainExt (plainConfig 1) (SimpleDaqAnalysis plainExt (plainConfig 1))
        []).map (fun s1 => s1.noise_oob) = some true := by
  decide

/-! ### C10 -/

/-- C10: for every sample sequence of length below `2 ^ 32` in which the value `v` occupies
strictly more than half of the positions, `Mode` returns `v`. -/
theorem Mode_majority (v : Int) (xs : List Int) (hlen : xs.length < 2 ^ 32)
    (hmaj : xs.length < 2 * xs.count v) : Mode xs = v := by
  have hlead := modePass_lead v xs hlen
  have hd := (modePass_firstHome xs).distinct
  have hAB : heldByOthers (modePass xs) v < heldBy (modePass xs) v := by omega
  have hex : ∃ p, (modePass xs).modes p = v ∧ (modePass xs).counters p ≠ 0 := by
    by_contra hno
    have : heldBy (modePass xs) v = 0 := by
      apply Finset.sum_eq_zero
      intro i _
      split_ifs with hm
      · by_contra hc
        exact hno ⟨i, hm, hc⟩
      · rfl
    omega
  obtain ⟨p, hpv, hpc⟩ := hex
  have huniq : ∀ i, i ≠ p → (modePass xs).modes i = v → (modePass xs).counters i = 0 := by
    intro i hi hm
    by_contra hc
    exact hi (hd i p hc hpc (hm.trans hpv.symm))
  have hA : heldBy (modePass xs) v = (modePass xs).counters p := by
    rw [heldBy_single _ v p huniq, if_pos hpv]
  unfold Mode
  rw [modeResult_strict_max (modePass xs) p, hpv]
  intro j hj
  by_cases hm : (modePass xs).modes j = v
  · rw [huniq j hj hm]
    omega
  · have hle : (modePass xs).counters j ≤ heldByOthers (modePass xs) v := by
      have := Finset.single_le_sum
        (f := fun i => if (modePass xs).modes i = v then 0 else (modePass xs).counters i)
        (fun i _ => Nat.zero_le _) (Finset.mem_univ j)
      simpa [hm] using this
    omega

/-- Witness of C10: 7 fills three of five positions. -/
theorem Mode_majority_witness :
    ([7, 1, 7, -2, 7] : List Int).length < 2 ^ 32 ∧
      ([7, 1, 7, -2, 7] : List Int).length < 2 * ([7, 1, 7, -2, 7] : List Int).count 7 ∧
      Mode [7, 1, 7, -2, 7] = 7 :=
  ⟨by decide, by decide, Mode_majority 7 [7, 1, 7, -2, 7] (by decide) (by decide)⟩

/-! ### C11 -/

/-- C11 fails on the code for `max`: the local `max` starts at 0 (while `min` starts at
`DBL_MAX`), so on the processed waveform `-5, -7`, whose largest sample is -5 and whose
smallest sample is -7, the record's `max` is 0; its `min` is -7, as the claim says. -/
theorem ProcessChannel_max_of_negative_waveform :
    ((-5 : Int) ∈ ([-5, -7] : List Int) ∧ ∀ x ∈ ([-5, -7] : List Int), x ≤ -5) ∧
      ((-7 : Int) ∈ ([-5, -7] : List Int) ∧ ∀ x ∈ ([-5, -7] : List Int), -7 ≤ x) ∧
      (ProcessChannel plainExt (plainConfig 1) (SimpleDaqAnalysis plainExt (plainConfig 1))
        (RawDigit.mk 0 [-5, -7])).map (fun s1 => ((s1.record 0).max, (s1.record 0).min))
        = some (0, -7) := by
  decide

end DaqAnalysis
